import Mathlib

/-!
Shallow embedding of the atl-gigs event reconciliation pipeline
(src/scraper/pipeline/merge.py, src/scraper/pipeline/validate.py,
src/scraper/utils/events.py, src/scrape.py) and proofs about it.

Python event dicts are modelled as a structure of optional fields; a field
that is `none` corresponds to a missing dict key.  Python dicts used as
keyed maps are modelled as insertion-ordered association lists, with the
Python semantics that updating an existing key keeps its position and a
new key is appended at the end.  Timestamps are abstracted to integer
seconds: `datetime.utcnow().isoformat() + "Z"` is modelled by rendering
the integer followed by "Z", and `datetime.fromisoformat` by a parser
that may fail (modelling the `except` branch for unparseable values).
-/

namespace AtlGigs

/-- Artist record: only the `name` key participates in the logic verified
here (slug generation). -/
structure Artist where
  name : Option String := none
deriving DecidableEq, Repr

/-- Event record with the fields used by the reconciliation pipeline.
`none` models a missing key in the Python dict. -/
structure Event where
  ticket_url : Option String := none
  slug : Option String := none
  is_new : Option Bool := none
  first_seen : Option String := none
  venue : Option String := none
  date : Option String := none
  stage : Option String := none
  artists : Option (List Artist) := none
deriving DecidableEq, Repr

/-- Python truthiness of an optional string field: missing keys and empty
strings are falsy (`if not event.get(field)`). -/
def strTruthy : Option String → Bool
  | none => false
  | some s => !(s == "")

/-- Python truthiness of an optional list field: missing keys and empty
lists are falsy. -/
def listTruthy : Option (List Artist) → Bool
  | none => false
  | some l => !l.isEmpty

/-- Association-list lookup, modelling Python `d[k]` / `k in d`. -/
def dictLookup {α : Type} (k : String) : List (String × α) → Option α
  | [] => none
  | (k', v) :: rest => if k' = k then some v else dictLookup k rest

/-- Association-list insert with Python dict semantics: an existing key is
updated in place (keeping its position), a new key is appended. -/
def dictInsert {α : Type} (k : String) (v : α) : List (String × α) → List (String × α)
  | [] => [(k, v)]
  | (k', v') :: rest => if k' = k then (k, v) :: rest else (k', v') :: dictInsert k v rest

/-- REQUIRED_FIELDS from src/scraper/config.py. -/
def REQUIRED_FIELDS : List String := ["venue", "date", "artists", "ticket_url"]

/-- NEW_EVENT_DAYS from src/scraper/config.py. -/
def NEW_EVENT_DAYS : Int := 5

/-- Truthiness of `event.get(field)` for the four required field names. -/
def getFieldTruthy (e : Event) : String → Bool
  | "venue" => strTruthy e.venue
  | "date" => strTruthy e.date
  | "artists" => listTruthy e.artists
  | "ticket_url" => strTruthy e.ticket_url
  | _ => false

/-- validate_event from src/scraper/pipeline/validate.py (identical logic in
src/scrape.py): every required field must be truthy, and the artists list
must be present and non-empty. -/
def validate_event (e : Event) : Bool :=
  if !(REQUIRED_FIELDS.all (fun f => getFieldTruthy e f)) then false
  else if !listTruthy e.artists || (e.artists.getD []).length == 0 then false
  else true

/-- Key under which merge_events indexes an event: its ticket_url when that
is present and non-empty (`if event.get("ticket_url")` / the comprehension
guard `if e.get("ticket_url")`), none otherwise. -/
def urlKey (e : Event) : Option String :=
  match e.ticket_url with
  | none => none
  | some u => if u = "" then none else some u

/-- One step of the events_by_url dict comprehension: skip events with a
falsy ticket_url, store the others under their url. -/
def indexStep (d : List (String × Event)) (e : Event) : List (String × Event) :=
  match urlKey e with
  | none => d
  | some u => dictInsert u e d

/-- events_by_url: the dict comprehension over existing events, skipping
events with a falsy ticket_url. -/
def indexByUrl (es : List Event) : List (String × Event) :=
  es.foldl indexStep []

/-- is_new_false_by_slug: the truthy slugs of existing events whose is_new
is literally False. -/
def isNewFalseSlugs (es : List Event) : List String :=
  es.filterMap (fun e =>
    match e.slug with
    | none => none
    | some s => if s = "" then none else if e.is_new = some false then some s else none)

/-- Body of one iteration of the merge loop of merge_events: inherit
first_seen from the indexed existing event when the incoming one lacks it,
and carry forward a pinned is_new = False by url and by slug. -/
def mergePin (pins : List String) (d : List (String × Event)) (u : String) (ev : Event) :
    Event :=
  let ev1 :=
    match dictLookup u d with
    | some ex =>
      let evA :=
        if ex.first_seen.isSome && ev.first_seen.isNone then
          { ev with first_seen := ex.first_seen }
        else ev
      if ex.is_new = some false then { evA with is_new := some false } else evA
    | none => ev
  match ev1.slug with
  | none => ev1
  | some s => if s ∈ pins then { ev1 with is_new := some false } else ev1

/-- One iteration of the merge loop: events with a falsy ticket_url are
skipped, others are stored under their ticket_url after `mergePin`. -/
def mergeStep (pins : List String) (d : List (String × Event)) (ev : Event) :
    List (String × Event) :=
  match urlKey ev with
  | none => d
  | some u => dictInsert u (mergePin pins d u ev) d

/-- merge_events from src/scraper/pipeline/merge.py. -/
def merge_events (existing incoming : List Event) : List Event :=
  (incoming.foldl (mergeStep (isNewFalseSlugs existing)) (indexByUrl existing)).map Prod.snd

/-- Two events agree on every field the merge loop never mutates (all fields
except first_seen and is_new). -/
def sameCore (a b : Event) : Prop :=
  a.ticket_url = b.ticket_url ∧ a.slug = b.slug ∧ a.venue = b.venue ∧
    a.date = b.date ∧ a.stage = b.stage ∧ a.artists = b.artists

instance (a b : Event) : Decidable (sameCore a b) := by
  unfold sameCore; infer_instance

/-- Keys of an association list are pairwise distinct (invariant of every
Python dict we model). -/
def DKeys {α : Type} (d : List (String × α)) : Prop :=
  (d.map Prod.fst).Pairwise (fun a b => a ≠ b)

/-- Every entry of a url-indexed dict stores an event under its own truthy
ticket_url. -/
def UrlInv (d : List (String × Event)) : Prop :=
  ∀ p ∈ d, p.2.ticket_url = some p.1 ∧ p.1 ≠ ""

/-- Model of `datetime.utcnow().isoformat() + "Z"` with timestamps
abstracted to integer seconds. -/
def renderTime (now : Int) : String := toString now ++ "Z"

/-- Model of parsing a stored first_seen string
(`datetime.fromisoformat(s.replace("Z", "+00:00"))`): strip a trailing "Z"
and read an integer; unparseable strings yield none, modelling the
exception branch. -/
def parseTime (s : String) : Option Int :=
  let core := if s.endsWith "Z" then s.dropRight 1 else s
  core.toInt?

/-- The freshness-window test of update_first_seen.  The source compares
`(now - first_seen).total_seconds() / 86400 <= NEW_EVENT_DAYS`; over exact
arithmetic this is `now - t <= NEW_EVENT_DAYS * 86400` seconds.  An
unparseable first_seen yields false (the `except` branch). -/
def isNewOf (now : Int) (fs : String) : Bool :=
  match parseTime fs with
  | some t => decide ((now - t) ≤ NEW_EVENT_DAYS * 86400)
  | none => false

/-- The is_new derivation of update_first_seen: a pinned is_new = False is
left untouched, otherwise is_new is recomputed from the freshness window. -/
def ufSetIsNew (now : Int) (e : Event) (fs : String) : Event :=
  if e.is_new = some false then e else { e with is_new := some (isNewOf now fs) }

/-- One iteration of the update_first_seen loop
(src/scraper/pipeline/merge.py): events without a truthy slug are skipped;
otherwise first_seen is copied from the cache when the slug is cached, else
stamped with now and inserted into the cache (incrementing new_count), and
then is_new is derived. -/
def ufStepOne (now : Int) (cache : List (String × String)) (cnt : Nat) (e : Event) :
    Event × List (String × String) × Nat :=
  match e.slug with
  | none => (e, cache, cnt)
  | some s =>
    if s = "" then (e, cache, cnt)
    else
      match dictLookup s cache with
      | some fs =>
        (ufSetIsNew now { e with first_seen := some fs } fs, cache, cnt)
      | none =>
        (ufSetIsNew now { e with first_seen := some (renderTime now) } (renderTime now),
          dictInsert s (renderTime now) cache, cnt + 1)

/-- The update_first_seen loop over the event list, threading the cache and
the new-event counter. -/
def ufGo (now : Int) : List Event → List (String × String) → Nat →
    List Event × List (String × String) × Nat
  | [], cache, cnt => ([], cache, cnt)
  | e :: rest, cache, cnt =>
    let r := ufStepOne now cache cnt e
    let q := ufGo now rest r.2.1 r.2.2
    (r.1 :: q.1, q.2.1, q.2.2)

/-- update_first_seen from src/scraper/pipeline/merge.py, with the mutated
`seen_cache["events"]` dict made an explicit argument and result, and
`datetime.utcnow()` abstracted to the integer `now`.  Returns the updated
events, the updated cache and new_count. -/
def update_first_seen (now : Int) (events : List Event)
    (cache : List (String × String)) : List Event × List (String × String) × Nat :=
  ufGo now events cache 0

/-- Model of the Python regex class `[\s_]` over ASCII: the whitespace
characters of `\s` plus the underscore handled by the same substitution. -/
def pyIsSpace (c : Char) : Bool :=
  c = ' ' || c = '\t' || c = '\n' || c = '\r' || c = Char.ofNat 11 || c = Char.ofNat 12

/-- Model of the Python regex class `\w` over ASCII: alphanumerics and
underscore. -/
def pyIsWord (c : Char) : Bool := c.isAlphanum || c = '_'

/-- Replace every maximal run of characters satisfying `p` by the single
character `r`; models `re.sub(cls + "+", r, s)`.  The Bool argument records
whether the previous character was part of a run. -/
def subRuns (p : Char → Bool) (r : Char) : Bool → List Char → List Char
  | _, [] => []
  | inRun, c :: rest =>
    if p c then
      (if inRun then subRuns p r true rest else r :: subRuns p r true rest)
    else c :: subRuns p r false rest

/-- Drop characters satisfying `p` from both ends; models Python `strip`. -/
def stripChar (p : Char → Bool) (l : List Char) : List Char :=
  ((l.dropWhile p).reverse.dropWhile p).reverse

/-- slugify, the inner helper of generate_slug: lowercase and strip, drop
characters outside `[\w\s-]`, turn runs of `[\s_]` into single hyphens,
collapse hyphen runs, and strip hyphens from both ends. -/
def slugify (text : String) : String :=
  let lowered := text.data.map Char.toLower
  let stripped := stripChar pyIsSpace lowered
  let kept := stripped.filter (fun c => pyIsWord c || pyIsSpace c || c = '-')
  let dashed := subRuns (fun c => pyIsSpace c || c = '_') '-' false kept
  let collapsed := subRuns (fun c => c = '-') '-' false dashed
  String.mk (stripChar (fun c => c = '-') collapsed)

/-- Model of `"-".join(filter(None, slug_parts))`. -/
def joinNonEmpty (parts : List String) : String :=
  String.intercalate "-" (parts.filter (fun s => !(s == "")))

/-- Model of `event.get("artists", [{}])[0].get("name", "unknown")`:
a missing artists key defaults to a one-element list of an empty record
(name defaults to "unknown"); a present-but-empty list makes `[0]` raise
IndexError, modelled as `none`. -/
def firstArtistName : Option (List Artist) → Option String
  | none => some "unknown"
  | some [] => none
  | some (a :: _) => some (a.name.getD "unknown")

/-- generate_slug from src/scraper/utils/events.py (the variant with a
stage component); `none` models the IndexError on an empty artists list. -/
def generate_slug (e : Event) : Option String :=
  match firstArtistName e.artists with
  | none => none
  | some artist =>
    some (joinNonEmpty
      [e.date.getD "", slugify (e.venue.getD ""), slugify (e.stage.getD ""), slugify artist])

/-- generate_slug from src/scrape.py (the variant used by main's slug
assignment pass; no stage component). -/
def main_generate_slug (e : Event) : Option String :=
  match firstArtistName e.artists with
  | none => none
  | some artist =>
    some (joinNonEmpty [e.date.getD "", slugify (e.venue.getD ""), slugify artist])

/-- The slug-uniquifying loop of main (src/scrape.py): `slug_counts` maps a
base slug to its last used counter; the first occurrence keeps the base
slug, each later one gets `f"{base}-{count}"` with the incremented count. -/
def assignLoop : List String → List (String × Nat) → List String
  | [], _ => []
  | b :: rest, counts =>
    match dictLookup b counts with
    | some k => (b ++ "-" ++ Nat.repr (k + 1)) :: assignLoop rest (dictInsert b (k + 1) counts)
    | none => b :: assignLoop rest (dictInsert b 0 counts)

/-- The uniquified slugs for a run's list of base slugs. -/
def uniquifySlugs (bases : List String) : List String := assignLoop bases []

/-- The base slugs of a run's event list; `none` when generate_slug raises
on some event. -/
def basesOf : List Event → Option (List String)
  | [] => some []
  | e :: rest =>
    match main_generate_slug e, basesOf rest with
    | some b, some bs => some (b :: bs)
    | _, _ => none

/-- The slug assignment pass of main over the events themselves, threading
slug_counts; `none` when generate_slug raises on some event. -/
def slugAssignGo : List Event → List (String × Nat) → Option (List Event)
  | [], _ => some []
  | e :: rest, counts =>
    match main_generate_slug e with
    | none => none
    | some b =>
      match dictLookup b counts with
      | some k =>
        match slugAssignGo rest (dictInsert b (k + 1) counts) with
        | none => none
        | some out => some ({ e with slug := some (b ++ "-" ++ Nat.repr (k + 1)) } :: out)
      | none =>
        match slugAssignGo rest (dictInsert b 0 counts) with
        | none => none
        | some out => some ({ e with slug := some b } :: out)

/-- The full slug assignment pass of main. -/
def assignSlugs (events : List Event) : Option (List Event) := slugAssignGo events []

/-- The slug the uniquifier assigns at position `i`: the base slug when it
is that base's first occurrence, otherwise the base suffixed with the
number of earlier occurrences. -/
def expectedSlug (bases : List String) (i : Nat) : String :=
  let b := bases.getD i ""
  let k := (bases.take i).count b
  if k = 0 then b else b ++ "-" ++ Nat.repr k

/-- Decimal value of a digit character (inverse of Nat.digitChar on 0-9). -/
def digitVal (c : Char) : Nat := c.toNat - 48

/-- Value of a decimal digit string, most significant first. -/
def charsVal (l : List Char) : Nat := l.foldl (fun a c => a * 10 + digitVal c) 0

/-- The date string of an event, `event.get("date", "")`. -/
def dateStr (e : Event) : String := e.date.getD ""

/-- The month bucket key of an event, `date[:7]`: the first seven
characters of the date string, expressed over the character list. -/
def monthKey (e : Event) : String := String.mk ((dateStr e).data.take 7)

/-- Python's lexicographic string comparison, over character lists
(structurally recursive, so concrete instances compute by kernel
reduction; proved equivalent to the String order below). -/
def charListLt : List Char → List Char → Bool
  | _, [] => false
  | [], _ :: _ => true
  | a :: as, b :: bs => if a < b then true else if b < a then false else charListLt as bs

/-- Stable insertion into a sorted list: the new element goes before the
first element it may precede, so ties keep encounter order. -/
def insertSorted {α : Type} (le : α → α → Bool) (x : α) : List α → List α
  | [] => [x]
  | y :: ys => if le x y then x :: y :: ys else y :: insertSorted le x ys

/-- Stable sort by a Boolean comparator, modelling Python's stable
`list.sort`. -/
def stableSort {α : Type} (le : α → α → Bool) (l : List α) : List α :=
  l.foldr (insertSorted le) []

/-- One step of grouping newly archived events by month prefix: events with
a date string shorter than 7 characters are silently skipped. -/
def byMonthStep (d : List (String × List Event)) (e : Event) :
    List (String × List Event) :=
  if (dateStr e).length ≥ 7 then
    match dictLookup (monthKey e) d with
    | some l => dictInsert (monthKey e) (l ++ [e]) d
    | none => dictInsert (monthKey e) [e] d
  else d

/-- Sort key for monthly buckets: date descending
(`sort(key=..., reverse=True)`).  String order is Python's lexicographic
comparison, expressed over the character lists (definitionally the same
relation as String.lt, but computable by kernel reduction). -/
def byDateDesc (a b : Event) : Bool := !(charListLt (dateStr a).data (dateStr b).data)

/-- Processing of one month group: load the existing bucket, append only
events whose slug is not already present (the existing_slugs set is
computed before the loop, so the appends equal a filter), and when anything
was added persist the bucket re-sorted by date descending. -/
def archStep (ar : List (String × List Event)) (p : String × List Event) :
    List (String × List Event) :=
  let existing := (dictLookup p.1 ar).getD []
  let existingSlugs := existing.map Event.slug
  let appended := p.2.filter (fun ev => !(decide (ev.slug ∈ existingSlugs)))
  if appended.length > 0 then
    dictInsert p.1 (stableSort byDateDesc (existing ++ appended)) ar
  else ar

/-- What one month group does to the bucket stored under its key. -/
def archAt (group : List Event) (o : Option (List Event)) : Option (List Event) :=
  let existing := o.getD []
  let appended := group.filter (fun ev => !(decide (ev.slug ∈ existing.map Event.slug)))
  if appended.length > 0 then some (stableSort byDateDesc (existing ++ appended)) else o

/-- archive_past_events from src/scrape.py: partition events into upcoming
and past by string comparison of the date with today, group past events by
month prefix, and fold the per-month bucket update over the keyed archive
state.  The monthly archive files (load_monthly_archive /
save_monthly_archive) are modelled as the explicit `archives` state;
`datetime.now().strftime("%Y-%m-%d")` is abstracted to the string `today`;
the archive-index bookkeeping (pure file I/O) is not modelled.  Returns
(upcoming, archives, newly_archived_count). -/
def archive_past_events (today : String) (archives : List (String × List Event))
    (events : List Event) : List Event × List (String × List Event) × Nat :=
  let upcoming := events.filter (fun e => !(charListLt (dateStr e).data today.data))
  let newlyArchived := events.filter (fun e => charListLt (dateStr e).data today.data)
  let byMonth := newlyArchived.foldl byMonthStep []
  let archives2 := byMonth.foldl archStep archives
  (upcoming, archives2, newlyArchived.length)

/-- Number of bucket entries carrying a given slug. -/
def slugCount (s : Option String) (l : List Event) : Nat :=
  l.countP (fun e => decide (e.slug = s))

/-- Number of bucket entries equal to a given event record. -/
def evCount (e : Event) (l : List Event) : Nat :=
  l.countP (fun x => decide (x = e))

theorem dictLookup_insert_self {α : Type} (k : String) (v : α) (d : List (String × α)) :
    dictLookup k (dictInsert k v d) = some v := by
  induction d with
  | nil => simp [dictInsert, dictLookup]
  | cons p rest ih =>
    obtain ⟨pk, pv⟩ := p
    by_cases h : pk = k <;> simp [dictInsert, dictLookup, h, ih]

theorem dictLookup_insert_ne {α : Type} {k k' : String} (h : k' ≠ k) (v : α)
    (d : List (String × α)) :
    dictLookup k (dictInsert k' v d) = dictLookup k d := by
  induction d with
  | nil => simp [dictInsert, dictLookup, h]
  | cons p rest ih =>
    obtain ⟨pk, pv⟩ := p
    by_cases hp : pk = k'
    · subst hp; simp [dictInsert, dictLookup, h]
    · have h' : k ≠ k' := fun hh => h hh.symm
      by_cases hk : pk = k <;> simp [dictInsert, dictLookup, hp, hk, h', ih]

theorem dictLookup_mem {α : Type} {k : String} {v : α} {d : List (String × α)}
    (h : dictLookup k d = some v) : (k, v) ∈ d := by
  induction d with
  | nil => simp [dictLookup] at h
  | cons p rest ih =>
    obtain ⟨pk, pv⟩ := p
    by_cases hp : pk = k
    · subst hp
      simp only [dictLookup, if_pos rfl] at h
      cases h
      exact List.mem_cons_self _ _
    · simp only [dictLookup, hp, ite_false] at h
      exact List.mem_cons_of_mem _ (ih h)

theorem mem_dictInsert_cases {α : Type} {q : String × α} {k : String} {v : α}
    {d : List (String × α)} (h : q ∈ dictInsert k v d) : q = (k, v) ∨ q ∈ d := by
  induction d with
  | nil => simp [dictInsert] at h; simp [h]
  | cons p rest ih =>
    obtain ⟨pk, pv⟩ := p
    by_cases hp : pk = k
    · subst hp
      simp only [dictInsert, if_pos rfl] at h
      rcases List.mem_cons.mp h with h1 | h1
      · exact Or.inl h1
      · exact Or.inr (List.mem_cons_of_mem _ h1)
    · simp only [dictInsert, hp, ite_false] at h
      rcases List.mem_cons.mp h with h1 | h1
      · exact Or.inr (h1 ▸ List.mem_cons_self _ _)
      · rcases ih h1 with h2 | h2
        · exact Or.inl h2
        · exact Or.inr (List.mem_cons_of_mem _ h2)

theorem dictLookup_of_mem_dkeys {α : Type} {k : String} {v : α} {d : List (String × α)}
    (hd : DKeys d) (h : (k, v) ∈ d) : dictLookup k d = some v := by
  induction d with
  | nil => simp at h
  | cons p rest ih =>
    obtain ⟨pk, pv⟩ := p
    rcases List.mem_cons.mp h with h1 | h1
    · cases h1; simp [dictLookup]
    · have hk : pk ≠ k := by
        have hp := (List.pairwise_cons.mp hd).1
        intro hpk
        exact hp k (List.mem_map_of_mem Prod.fst h1) hpk
      simp only [dictLookup, hk, ite_false]
      exact ih (List.pairwise_cons.mp hd).2 h1

theorem dkeys_insert {α : Type} {d : List (String × α)} (hd : DKeys d) (k : String) (v : α) :
    DKeys (dictInsert k v d) := by
  induction d with
  | nil =>
    simp [dictInsert, DKeys]
  | cons p rest ih =>
    obtain ⟨pk, pv⟩ := p
    obtain ⟨hp, hrest⟩ := List.pairwise_cons.mp hd
    by_cases hpk : pk = k
    · subst hpk
      simp only [dictInsert, if_pos rfl]
      exact List.pairwise_cons.mpr ⟨fun b hb => hp b hb, hrest⟩
    · simp only [dictInsert, hpk, ite_false]
      refine List.pairwise_cons.mpr ⟨?_, ih hrest⟩
      intro b hb
      rcases List.mem_map.mp hb with ⟨q, hq, rfl⟩
      rcases mem_dictInsert_cases hq with h1 | h1
      · cases h1; exact hpk
      · exact hp q.1 (List.mem_map_of_mem Prod.fst h1)

theorem urlKey_eq_some {e : Event} {u : String} (h : urlKey e = some u) :
    e.ticket_url = some u ∧ u ≠ "" := by
  unfold urlKey at h
  cases hu : e.ticket_url with
  | none => rw [hu] at h; simp at h
  | some s =>
    rw [hu] at h
    by_cases hs : s = ""
    · simp [hs] at h
    · simp only [hs, ite_false, Option.some.injEq] at h
      subst h
      exact ⟨rfl, hs⟩

theorem urlInv_insert {d : List (String × Event)} (hd : UrlInv d) {u : String} {v : Event}
    (hv : v.ticket_url = some u ∧ u ≠ "") : UrlInv (dictInsert u v d) := by
  intro p hp
  rcases mem_dictInsert_cases hp with h1 | h1
  · cases h1; exact hv
  · exact hd p h1

theorem mergePin_core (pins : List String) (d : List (String × Event)) (u : String)
    (ev : Event) : sameCore (mergePin pins d u ev) ev := by
  unfold mergePin
  cases hl : dictLookup u d with
  | none =>
    cases hs : ev.slug with
    | none => simp [hs, sameCore]
    | some s =>
      by_cases hp : s ∈ pins <;> simp [hs, hp, sameCore]
  | some ex =>
    by_cases h1 : ex.first_seen.isSome && ev.first_seen.isNone <;>
      by_cases h2 : ex.is_new = some false <;>
        cases hs : ev.slug with
        | none => simp [h1, h2, hs, sameCore]
        | some s => by_cases hp : s ∈ pins <;> simp [h1, h2, hs, hp, sameCore]

theorem sameCore_refl (e : Event) : sameCore e e := ⟨rfl, rfl, rfl, rfl, rfl, rfl⟩

theorem sameCore_trans {a b c : Event} (h1 : sameCore a b) (h2 : sameCore b c) :
    sameCore a c := by
  obtain ⟨x1, x2, x3, x4, x5, x6⟩ := h1
  obtain ⟨y1, y2, y3, y4, y5, y6⟩ := h2
  exact ⟨x1.trans y1, x2.trans y2, x3.trans y3, x4.trans y4, x5.trans y5, x6.trans y6⟩

theorem mergePin_false_of_lookup {pins : List String} {d : List (String × Event)}
    {u : String} {ex : Event} (hl : dictLookup u d = some ex)
    (hf : ex.is_new = some false) (ev : Event) :
    (mergePin pins d u ev).is_new = some false := by
  unfold mergePin
  rw [hl]
  by_cases h1 : ex.first_seen.isSome && ev.first_seen.isNone <;>
    simp only [h1, hf, if_true, if_false, Bool.false_eq_true, ite_true, ite_false]
  all_goals
    cases hs : (({ ev with is_new := some false } : Event)).slug with
    | none => simp
    | some s => by_cases hp : s ∈ pins <;> simp [hp]

theorem mergePin_false_of_pin {pins : List String} {s : String} (hs : s ∈ pins)
    (d : List (String × Event)) (u : String) {ev : Event} (hslug : ev.slug = some s) :
    (mergePin pins d u ev).is_new = some false := by
  unfold mergePin
  cases hl : dictLookup u d with
  | none => simp only [hslug, hs, if_true, ite_true]
  | some ex =>
    by_cases h1 : ex.first_seen.isSome && ev.first_seen.isNone <;>
      by_cases h2 : ex.is_new = some false <;>
        simp [h1, h2, hslug, hs]

/-- Folding the merge loop over events none of which carries key `u` leaves
the entry at `u` unchanged. -/
theorem foldl_mergeStep_lookup_ne {u : String} (pins : List String) :
    ∀ (l : List Event) (d : List (String × Event)),
      (∀ ev ∈ l, urlKey ev ≠ some u) →
      dictLookup u (l.foldl (mergeStep pins) d) = dictLookup u d := by
  intro l
  induction l with
  | nil => intro d _; rfl
  | cons ev rest ih =>
    intro d hl
    have hev : urlKey ev ≠ some u := hl ev (List.mem_cons_self _ _)
    have hrest : ∀ x ∈ rest, urlKey x ≠ some u :=
      fun x hx => hl x (List.mem_cons_of_mem _ hx)
    simp only [List.foldl_cons]
    rw [ih _ hrest]
    unfold mergeStep
    cases hk : urlKey ev with
    | none => rfl
    | some u' =>
      have : u' ≠ u := fun h => hev (h ▸ hk)
      exact dictLookup_insert_ne this _ d

/-- Once the dict maps `u` to an event pinned is_new = False, every later
merge iteration keeps an is_new = False event at `u` (the pin is carried
forward through chained replacements). -/
theorem foldl_mergeStep_false {u : String} (pins : List String) :
    ∀ (l : List Event) (d : List (String × Event)) (v : Event),
      dictLookup u d = some v → v.is_new = some false →
      ∃ w, dictLookup u (l.foldl (mergeStep pins) d) = some w ∧ w.is_new = some false := by
  intro l
  induction l with
  | nil => intro d v hv hf; exact ⟨v, hv, hf⟩
  | cons ev rest ih =>
    intro d v hv hf
    simp only [List.foldl_cons]
    unfold mergeStep
    cases hk : urlKey ev with
    | none => exact ih d v hv hf
    | some u' =>
      by_cases hu : u' = u
      · subst hu
        refine ih _ (mergePin pins d u' ev) (dictLookup_insert_self _ _ _) ?_
        exact mergePin_false_of_lookup hv hf ev
      · refine ih _ v ?_ hf
        rw [dictLookup_insert_ne hu _ d]
        exact hv

/-- DKeys and UrlInv are invariants of the merge fold. -/
theorem foldl_mergeStep_inv (pins : List String) :
    ∀ (l : List Event) (d : List (String × Event)), DKeys d → UrlInv d →
      DKeys (l.foldl (mergeStep pins) d) ∧ UrlInv (l.foldl (mergeStep pins) d) := by
  intro l
  induction l with
  | nil => intro d h1 h2; exact ⟨h1, h2⟩
  | cons ev rest ih =>
    intro d h1 h2
    simp only [List.foldl_cons]
    unfold mergeStep
    cases hk : urlKey ev with
    | none => exact ih d h1 h2
    | some u =>
      refine ih _ (dkeys_insert h1 _ _) (urlInv_insert h2 ?_)
      have hc := mergePin_core pins d u ev
      have he := urlKey_eq_some hk
      exact ⟨hc.1.trans he.1, he.2⟩

/-- DKeys and UrlInv hold of the initial index of existing events. -/
theorem indexByUrl_inv (es : List Event) :
    DKeys (indexByUrl es) ∧ UrlInv (indexByUrl es) := by
  unfold indexByUrl
  suffices h : ∀ (l : List Event) (d : List (String × Event)), DKeys d → UrlInv d →
      DKeys (l.foldl indexStep d) ∧ UrlInv (l.foldl indexStep d) by
    exact h es [] (by simp [DKeys]) (by intro p hp; simp at hp)
  intro l
  induction l with
  | nil => intro d h1 h2; exact ⟨h1, h2⟩
  | cons ev rest ih =>
    intro d h1 h2
    simp only [List.foldl_cons]
    unfold indexStep
    cases hk : urlKey ev with
    | none => exact ih d h1 h2
    | some u => exact ih _ (dkeys_insert h1 _ _) (urlInv_insert h2 (urlKey_eq_some hk))

/-- Indexing steps over events none of which carries key `u` leave the entry
at `u` unchanged. -/
theorem foldl_indexStep_lookup_ne {u : String} :
    ∀ (l : List Event) (d : List (String × Event)),
      (∀ ev ∈ l, urlKey ev ≠ some u) →
      dictLookup u (l.foldl indexStep d) = dictLookup u d := by
  intro l
  induction l with
  | nil => intro d _; rfl
  | cons ev rest ih =>
    intro d hl
    have hev : urlKey ev ≠ some u := hl ev (List.mem_cons_self _ _)
    have hrest : ∀ x ∈ rest, urlKey x ≠ some u :=
      fun x hx => hl x (List.mem_cons_of_mem _ hx)
    simp only [List.foldl_cons]
    rw [ih _ hrest]
    unfold indexStep
    cases hk : urlKey ev with
    | none => rfl
    | some u' =>
      have : u' ≠ u := fun h => hev (h ▸ hk)
      exact dictLookup_insert_ne this _ d

/-- In a list of events with pairwise-distinct truthy urls, each later
member contributes a key different from any key contributed by an earlier
member. -/
theorem key_not_in_suffix {l pre post : List Event} {e : Event} {u : String}
    (hsplit : l = pre ++ e :: post) (hk : urlKey e = some u)
    (hdist : (l.filterMap urlKey).Pairwise (fun a b => a ≠ b)) :
    ∀ x ∈ post, urlKey x ≠ some u := by
  intro x hx hxk
  rw [hsplit, List.filterMap_append] at hdist
  have h2 : ((e :: post).filterMap urlKey).Pairwise (fun a b => a ≠ b) :=
    hdist.sublist (List.sublist_append_right _ _)
  rw [List.filterMap_cons_some hk] at h2
  have hne := (List.pairwise_cons.mp h2).1
  exact hne u (List.mem_filterMap.mpr ⟨x, hx, hxk⟩) rfl

/-- With pairwise-distinct truthy urls among existing events, the initial
index maps every truthy url to its unique existing event. -/
theorem indexByUrl_lookup_of_distinct {ex : List Event} {e : Event} {u : String}
    (hdist : (ex.filterMap urlKey).Pairwise (fun a b => a ≠ b))
    (he : e ∈ ex) (hk : urlKey e = some u) :
    dictLookup u (indexByUrl ex) = some e := by
  obtain ⟨pre, post, rfl⟩ := List.append_of_mem he
  unfold indexByUrl
  rw [List.foldl_append, List.foldl_cons]
  rw [foldl_indexStep_lookup_ne post _ (key_not_in_suffix rfl hk hdist)]
  show dictLookup u (indexStep _ e) = some e
  unfold indexStep
  rw [hk]
  exact dictLookup_insert_self _ _ _

/-- DKeys and UrlInv of the final merge dict. -/
theorem merge_dict_inv (ex inc : List Event) :
    DKeys (inc.foldl (mergeStep (isNewFalseSlugs ex)) (indexByUrl ex)) ∧
    UrlInv (inc.foldl (mergeStep (isNewFalseSlugs ex)) (indexByUrl ex)) :=
  (foldl_mergeStep_inv _ inc _ (indexByUrl_inv ex).1 (indexByUrl_inv ex).2)

/-- C10: merge-output invariant. Every merged event has a truthy ticket_url,
ticket_urls are pairwise distinct in the result, and an existing event with
a falsy ticket_url never survives the merge. -/
theorem merge_events_output_invariant (ex inc : List Event) :
    (∀ r ∈ merge_events ex inc, strTruthy r.ticket_url = true) ∧
    (merge_events ex inc).Pairwise (fun a b => a.ticket_url ≠ b.ticket_url) ∧
    (∀ e ∈ ex, strTruthy e.ticket_url = false → e ∉ merge_events ex inc) := by
  obtain ⟨hdk, hui⟩ := merge_dict_inv ex inc
  set d := inc.foldl (mergeStep (isNewFalseSlugs ex)) (indexByUrl ex) with hd
  have hurl : ∀ r ∈ merge_events ex inc, strTruthy r.ticket_url = true := by
    intro r hr
    rcases List.mem_map.mp hr with ⟨p, hp, rfl⟩
    obtain ⟨h1, h2⟩ := hui p hp
    rw [h1]
    simpa [strTruthy] using h2
  refine ⟨hurl, ?_, ?_⟩
  · unfold merge_events
    rw [List.pairwise_map]
    have hkeys : d.Pairwise (fun p q => p.1 ≠ q.1) := by
      have := hdk
      rwa [DKeys, List.pairwise_map] at this
    refine hkeys.imp_of_mem ?_
    intro p q hp hq hne
    rw [(hui p hp).1, (hui q hq).1]
    simp only [ne_eq, Option.some.injEq]
    exact hne
  · intro e he hfalse hmem
    rw [hurl e hmem] at hfalse
    exact Bool.true_eq_false.mp hfalse

/-- Witness for C10 at concrete lists (an existing url-less event is dropped,
an existing and an incoming event with the same url collapse to one entry). -/
theorem merge_events_output_invariant_witness :
    (∀ r ∈ merge_events
        [{ ticket_url := some "u1", venue := some "a" }, { venue := some "b" }]
        [{ ticket_url := some "u1", venue := some "c" }],
      strTruthy r.ticket_url = true) ∧
    (merge_events
        [{ ticket_url := some "u1", venue := some "a" }, { venue := some "b" }]
        [{ ticket_url := some "u1", venue := some "c" }]).Pairwise
      (fun a b => a.ticket_url ≠ b.ticket_url) ∧
    (∀ e ∈ [({ ticket_url := some "u1", venue := some "a" } : Event),
        { venue := some "b" }],
      strTruthy e.ticket_url = false →
        e ∉ merge_events
          [{ ticket_url := some "u1", venue := some "a" }, { venue := some "b" }]
          [{ ticket_url := some "u1", venue := some "c" }]) :=
  merge_events_output_invariant
    [{ ticket_url := some "u1", venue := some "a" }, { venue := some "b" }]
    [{ ticket_url := some "u1", venue := some "c" }]

/-- C1 as frozen is false: when two existing events share a ticket_url, the
earlier one is silently dropped even though no incoming event reports that
url; and when two incoming events share a url matching an existing event,
the earlier incoming event does not appear in the result at all. -/
theorem merge_preserves_unseen_cex :
    ({ ticket_url := some "u", venue := some "a" } : Event) ∈
        ([{ ticket_url := some "u", venue := some "a" },
          { ticket_url := some "u", venue := some "b" }] : List Event) ∧
    strTruthy (some "u") = true ∧
    ({ ticket_url := some "u", venue := some "a" } : Event) ∉
      merge_events
        [{ ticket_url := some "u", venue := some "a" },
         { ticket_url := some "u", venue := some "b" }] [] ∧
    ({ ticket_url := some "w", venue := some "b1" } : Event) ∈
        ([{ ticket_url := some "w", venue := some "b1" },
          { ticket_url := some "w", venue := some "b2" }] : List Event) ∧
    ({ ticket_url := some "w", venue := some "c" } : Event).ticket_url =
      ({ ticket_url := some "w", venue := some "b1" } : Event).ticket_url ∧
    (∀ r ∈ merge_events [{ ticket_url := some "w", venue := some "c" }]
        [{ ticket_url := some "w", venue := some "b1" },
         { ticket_url := some "w", venue := some "b2" }],
      ¬ sameCore r { ticket_url := some "w", venue := some "b1" }) := by
  decide

/-- C1 (amended): provided no two existing events share a truthy ticket_url
and no two incoming events do, every existing event whose truthy url is not
reported by any incoming event survives the merge unchanged, and every
incoming event with a truthy url matching an existing one replaces it: it
is in the result (up to the merge's first_seen/is_new adjustments) and every
result event at that url agrees with it on all non-adjusted fields. -/
theorem merge_preserves_unseen (ex inc : List Event)
    (hex : (ex.filterMap urlKey).Pairwise (fun a b => a ≠ b))
    (hinc : (inc.filterMap urlKey).Pairwise (fun a b => a ≠ b)) :
    (∀ e ∈ ex, ∀ u, urlKey e = some u → (∀ n ∈ inc, urlKey n ≠ some u) →
      e ∈ merge_events ex inc) ∧
    (∀ n ∈ inc, ∀ u, urlKey n = some u → (∃ e0 ∈ ex, e0.ticket_url = some u) →
      (∃ r ∈ merge_events ex inc, sameCore r n) ∧
      (∀ r ∈ merge_events ex inc, r.ticket_url = some u → sameCore r n)) := by
  constructor
  · intro e he u hk hninc
    have hfin : dictLookup u (inc.foldl (mergeStep (isNewFalseSlugs ex)) (indexByUrl ex)) =
        some e := by
      rw [foldl_mergeStep_lookup_ne _ inc _ hninc]
      exact indexByUrl_lookup_of_distinct hex he hk
    exact List.mem_map_of_mem Prod.snd (dictLookup_mem hfin)
  · intro n hn u hk _hmatch
    obtain ⟨pre, post, rfl⟩ := List.append_of_mem hn
    have hpost : ∀ x ∈ post, urlKey x ≠ some u := key_not_in_suffix rfl hk hinc
    have hlk : dictLookup u
        ((pre ++ n :: post).foldl (mergeStep (isNewFalseSlugs ex)) (indexByUrl ex)) =
        some (mergePin (isNewFalseSlugs ex)
          (pre.foldl (mergeStep (isNewFalseSlugs ex)) (indexByUrl ex)) u n) := by
      rw [List.foldl_append, List.foldl_cons,
        foldl_mergeStep_lookup_ne _ post _ hpost]
      show dictLookup u (mergeStep _ _ n) = _
      unfold mergeStep
      rw [hk]
      exact dictLookup_insert_self _ _ _
    constructor
    · exact ⟨_, List.mem_map_of_mem Prod.snd (dictLookup_mem hlk), mergePin_core _ _ _ _⟩
    · intro r hr hru
      obtain ⟨hdk, hui⟩ := merge_dict_inv ex (pre ++ n :: post)
      rcases List.mem_map.mp hr with ⟨p, hp, rfl⟩
      have h1 := (hui p hp).1
      have hpu : p.1 = u := by
        rw [h1] at hru
        exact Option.some.inj hru
      have hpl : dictLookup u
          ((pre ++ n :: post).foldl (mergeStep (isNewFalseSlugs ex)) (indexByUrl ex)) =
          some p.2 := by
        refine dictLookup_of_mem_dkeys hdk ?_
        rw [← hpu]
        exact hp
      rw [hlk] at hpl
      rw [← Option.some.inj hpl]
      exact mergePin_core _ _ _ _

/-- Witness for C1 at the spec's own example: existing A and B, incoming A'
sharing A's url; B survives untouched and A' replaces A. -/
theorem merge_preserves_unseen_witness :
    (∀ e ∈ ([{ ticket_url := some "u1", venue := some "a" },
        { ticket_url := some "u2", venue := some "b" }] : List Event),
      ∀ u, urlKey e = some u →
      (∀ n ∈ ([{ ticket_url := some "u1", venue := some "a2" }] : List Event),
        urlKey n ≠ some u) →
      e ∈ merge_events
        [{ ticket_url := some "u1", venue := some "a" },
         { ticket_url := some "u2", venue := some "b" }]
        [{ ticket_url := some "u1", venue := some "a2" }]) ∧
    (∀ n ∈ ([{ ticket_url := some "u1", venue := some "a2" }] : List Event),
      ∀ u, urlKey n = some u →
      (∃ e0 ∈ ([{ ticket_url := some "u1", venue := some "a" },
          { ticket_url := some "u2", venue := some "b" }] : List Event),
        e0.ticket_url = some u) →
      (∃ r ∈ merge_events
          [{ ticket_url := some "u1", venue := some "a" },
           { ticket_url := some "u2", venue := some "b" }]
          [{ ticket_url := some "u1", venue := some "a2" }], sameCore r n) ∧
      (∀ r ∈ merge_events
          [{ ticket_url := some "u1", venue := some "a" },
           { ticket_url := some "u2", venue := some "b" }]
          [{ ticket_url := some "u1", venue := some "a2" }],
        r.ticket_url = some u → sameCore r n)) :=
  merge_preserves_unseen
    [{ ticket_url := some "u1", venue := some "a" },
     { ticket_url := some "u2", venue := some "b" }]
    [{ ticket_url := some "u1", venue := some "a2" }]
    (by decide) (by decide)

/-- C6: validator totality. `validate_event` returns true exactly when
`venue`, `date` and `ticket_url` are present and non-empty and the artists
list is present and non-empty; it returns false whenever any of the four is
missing or empty.  (The model is a pure Boolean function, mirroring the
side-effect-free Python source.) -/
theorem validate_event_totality (e : Event) :
    validate_event e = true ↔
      ((∃ v, e.venue = some v ∧ v ≠ "") ∧
       (∃ d, e.date = some d ∧ d ≠ "") ∧
       (∃ l, e.artists = some l ∧ l ≠ []) ∧
       (∃ u, e.ticket_url = some u ∧ u ≠ "")) := by
  obtain ⟨url, slug, isnew, fs, venue, date, stage, artists⟩ := e
  simp only [validate_event, REQUIRED_FIELDS, List.all_cons, List.all_nil, getFieldTruthy,
    strTruthy, listTruthy]
  cases venue <;> cases date <;> cases artists <;> cases url <;>
    simp_all [List.isEmpty_iff, Option.getD]

/-- Witness for C6 at a concrete fully-populated event and the iff both ways. -/
theorem validate_event_totality_witness :
    validate_event
        { venue := some "The Earl", date := some "2026-02-10",
          artists := some [{ name := some "Headliner" }],
          ticket_url := some "https://t.example/1" } = true ↔
      ((∃ v, (some "The Earl" : Option String) = some v ∧ v ≠ "") ∧
       (∃ d, (some "2026-02-10" : Option String) = some d ∧ d ≠ "") ∧
       (∃ l, (some [({ name := some "Headliner" } : Artist)] : Option (List Artist)) = some l ∧
         l ≠ []) ∧
       (∃ u, (some "https://t.example/1" : Option String) = some u ∧ u ≠ "")) :=
  validate_event_totality
    { venue := some "The Earl", date := some "2026-02-10",
      artists := some [{ name := some "Headliner" }],
      ticket_url := some "https://t.example/1" }

theorem ufSetIsNew_first_seen (now : Int) (x : Event) (fs : String) :
    (ufSetIsNew now x fs).first_seen = x.first_seen := by
  unfold ufSetIsNew; split <;> rfl

theorem ufSetIsNew_slug (now : Int) (x : Event) (fs : String) :
    (ufSetIsNew now x fs).slug = x.slug := by
  unfold ufSetIsNew; split <;> rfl

theorem ufSetIsNew_pinned {x : Event} (h : x.is_new = some false) (now : Int) (fs : String) :
    (ufSetIsNew now x fs).is_new = some false := by
  unfold ufSetIsNew; rw [if_pos h]; exact h

theorem ufSetIsNew_derived {x : Event} (h : x.is_new ≠ some false) (now : Int) (fs : String) :
    (ufSetIsNew now x fs).is_new = some (isNewOf now fs) := by
  unfold ufSetIsNew; rw [if_neg h]

theorem ufStepOne_falsy {e : Event} (h : strTruthy e.slug = false)
    (now : Int) (cache : List (String × String)) (cnt : Nat) :
    ufStepOne now cache cnt e = (e, cache, cnt) := by
  cases hs : e.slug with
  | none => simp [ufStepOne, hs]
  | some s =>
    have hse : s = "" := by
      rw [hs] at h
      simp only [strTruthy] at h
      by_contra hne
      simp [hne] at h
    subst hse
    simp [ufStepOne, hs]

theorem ufStepOne_slug (now : Int) (cache : List (String × String)) (cnt : Nat) (e : Event) :
    (ufStepOne now cache cnt e).1.slug = e.slug := by
  cases hs : e.slug with
  | none => simp [ufStepOne, hs]
  | some s =>
    by_cases hse : s = ""
    · subst hse; simp [ufStepOne, hs]
    · cases hl : dictLookup s cache <;>
        simp [ufStepOne, hs, hse, hl, ufSetIsNew_slug]

theorem ufStepOne_cache_mono {s fs : String} {cache : List (String × String)}
    (h : dictLookup s cache = some fs) (now : Int) (cnt : Nat) (e : Event) :
    dictLookup s (ufStepOne now cache cnt e).2.1 = some fs := by
  cases hs : e.slug with
  | none => simpa [ufStepOne, hs] using h
  | some s' =>
    by_cases hse : s' = ""
    · subst hse; simpa [ufStepOne, hs] using h
    · cases hl : dictLookup s' cache with
      | some fs' => simpa [ufStepOne, hs, hse, hl] using h
      | none =>
        have hne : s' ≠ s := fun he => by rw [he, h] at hl; cases hl
        simp only [ufStepOne, hs, hl, if_neg hse]
        rw [dictLookup_insert_ne hne _ cache]
        exact h

theorem ufStepOne_truthy {e : Event} {s : String} (hs : e.slug = some s) (hse : s ≠ "")
    (now : Int) (cache : List (String × String)) (cnt : Nat) :
    ∃ fs, (ufStepOne now cache cnt e).1.first_seen = some fs ∧
      dictLookup s (ufStepOne now cache cnt e).2.1 = some fs ∧
      (∀ fs0, dictLookup s cache = some fs0 → fs = fs0) ∧
      (e.is_new = some false → (ufStepOne now cache cnt e).1.is_new = some false) ∧
      (e.is_new ≠ some false →
        (ufStepOne now cache cnt e).1.is_new = some (isNewOf now fs)) := by
  cases hl : dictLookup s cache with
  | some fs =>
    refine ⟨fs, ?_, ?_, ?_, ?_, ?_⟩
    · simp [ufStepOne, hs, hse, hl, ufSetIsNew_first_seen]
    · simp [ufStepOne, hs, hse, hl]
    · intro fs0 h0; exact Option.some.inj h0
    · intro hpin
      have hp := ufSetIsNew_pinned (x := { e with first_seen := some fs }) hpin now fs
      rw [hs] at hp
      simp only [ufStepOne, hs, if_neg hse, hl]
      exact hp
    · intro hnp
      have hp := ufSetIsNew_derived (x := { e with first_seen := some fs }) hnp now fs
      rw [hs] at hp
      simp only [ufStepOne, hs, if_neg hse, hl]
      exact hp
  | none =>
    refine ⟨renderTime now, ?_, ?_, ?_, ?_, ?_⟩
    · simp [ufStepOne, hs, hse, hl, ufSetIsNew_first_seen]
    · simp only [ufStepOne, hs, if_neg hse, hl]
      exact dictLookup_insert_self _ _ _
    · intro fs0 h0; cases h0
    · intro hpin
      have hp := ufSetIsNew_pinned (x := { e with first_seen := some (renderTime now) })
        hpin now (renderTime now)
      rw [hs] at hp
      simp only [ufStepOne, hs, if_neg hse, hl]
      exact hp
    · intro hnp
      have hp := ufSetIsNew_derived (x := { e with first_seen := some (renderTime now) })
        hnp now (renderTime now)
      rw [hs] at hp
      simp only [ufStepOne, hs, if_neg hse, hl]
      exact hp

theorem ufGo_cache_mono (now : Int) :
    ∀ (l : List Event) (cache : List (String × String)) (cnt : Nat) (s fs : String),
      dictLookup s cache = some fs →
      dictLookup s (ufGo now l cache cnt).2.1 = some fs := by
  intro l
  induction l with
  | nil => intro cache cnt s fs h; exact h
  | cons e rest ih =>
    intro cache cnt s fs h
    exact ih _ _ s fs (ufStepOne_cache_mono h now cnt e)

theorem ufGo_consistent (now : Int) :
    ∀ (l : List Event) (cache : List (String × String)) (cnt : Nat),
      ∀ e' ∈ (ufGo now l cache cnt).1, ∀ s, e'.slug = some s → s ≠ "" →
        ∃ fs, e'.first_seen = some fs ∧
          dictLookup s (ufGo now l cache cnt).2.1 = some fs := by
  intro l
  induction l with
  | nil => intro cache cnt e' he'; simp [ufGo] at he'
  | cons e rest ih =>
    intro cache cnt e' he' s hs hse
    rcases List.mem_cons.mp he' with h1 | h1
    · subst h1
      have hslug : e.slug = some s := by rw [← ufStepOne_slug now cache cnt e]; exact hs
      obtain ⟨fs, hfs, hlk, _, _, _⟩ := ufStepOne_truthy hslug hse now cache cnt
      exact ⟨fs, hfs, ufGo_cache_mono now rest _ _ s fs hlk⟩
    · exact ih _ _ e' h1 s hs hse

theorem ufGo_stable (now' : Int) :
    ∀ (l : List Event) (cache : List (String × String)) (cnt : Nat),
      (∀ e ∈ l, ∀ s, e.slug = some s → s ≠ "" →
        ∃ fs, e.first_seen = some fs ∧ dictLookup s cache = some fs) →
      (ufGo now' l cache cnt).1.map (fun e => e.first_seen) =
        l.map (fun e => e.first_seen) := by
  intro l
  induction l with
  | nil => intro cache cnt _; rfl
  | cons e rest ih =>
    intro cache cnt hcons
    have hhead := hcons e (List.mem_cons_self _ _)
    show ((ufStepOne now' cache cnt e).1 ::
        (ufGo now' rest (ufStepOne now' cache cnt e).2.1
          (ufStepOne now' cache cnt e).2.2).1).map (fun e => e.first_seen) = _
    cases hst : strTruthy e.slug with
    | false =>
      rw [ufStepOne_falsy hst now' cache cnt]
      simp only [List.map_cons]
      rw [ih _ _ (fun x hx => hcons x (List.mem_cons_of_mem _ hx))]
    | true =>
      cases hs : e.slug with
      | none => rw [hs] at hst; simp [strTruthy] at hst
      | some s =>
        have hse : s ≠ "" := by
          rw [hs] at hst
          simp only [strTruthy] at hst
          intro he; rw [he] at hst; simp at hst
        obtain ⟨fs, hefs, hclk⟩ := hhead s hs hse
        have hstep : (ufStepOne now' cache cnt e).1.first_seen = e.first_seen ∧
            (ufStepOne now' cache cnt e).2.1 = cache := by
          simp only [ufStepOne, hs, if_neg hse, hclk]
          exact ⟨by rw [ufSetIsNew_first_seen]; exact hefs.symm, trivial⟩
        simp only [List.map_cons, hstep.1, hstep.2]
        rw [ih _ _ (fun x hx => hcons x (List.mem_cons_of_mem _ hx))]

theorem ufGo_index (now : Int) :
    ∀ (l : List Event) (cache : List (String × String)) (cnt : Nat) (i : Nat) (e : Event),
      l[i]? = some e →
      ∃ e', (ufGo now l cache cnt).1[i]? = some e' ∧ e'.slug = e.slug ∧
        (strTruthy e.slug = false → e' = e) ∧
        (e.is_new = some false → e'.is_new = some false) ∧
        (∀ s, e.slug = some s → s ≠ "" →
          ∃ fs, e'.first_seen = some fs ∧
            (e.is_new ≠ some false → e'.is_new = some (isNewOf now fs))) := by
  intro l
  induction l with
  | nil => intro cache cnt i e he; simp at he
  | cons x rest ih =>
    intro cache cnt i e he
    cases i with
    | zero =>
      have hx : x = e := by simpa using he
      subst hx
      refine ⟨(ufStepOne now cache cnt x).1, by simp [ufGo], ufStepOne_slug now cache cnt x,
        ?_, ?_, ?_⟩
      · intro hf; rw [ufStepOne_falsy hf now cache cnt]
      · intro hpin
        cases hs : x.slug with
        | none =>
          rw [ufStepOne_falsy (by rw [hs]; rfl) now cache cnt]
          exact hpin
        | some s =>
          by_cases hse : s = ""
          · rw [ufStepOne_falsy (by rw [hs, hse]; rfl) now cache cnt]
            exact hpin
          · obtain ⟨fs, _, _, _, hp, _⟩ := ufStepOne_truthy hs hse now cache cnt
            exact hp hpin
      · intro s hs hse
        obtain ⟨fs, hfs, _, _, _, hd⟩ := ufStepOne_truthy hs hse now cache cnt
        exact ⟨fs, hfs, fun hnp => hd hnp⟩
    | succ j =>
      have he' : rest[j]? = some e := by simpa using he
      obtain ⟨e', h1, h2, h3, h4, h5⟩ :=
        ih (ufStepOne now cache cnt x).2.1 (ufStepOne now cache cnt x).2.2 j e he'
      refine ⟨e', ?_, h2, h3, h4, h5⟩
      simp only [ufGo, List.getElem?_cons_succ]
      exact h1

/-- Any merged event carrying ticket_url `u` is the final dict entry at `u`. -/
theorem result_at_url {ex inc : List Event} {u : String} {w : Event}
    (hlk : dictLookup u (inc.foldl (mergeStep (isNewFalseSlugs ex)) (indexByUrl ex)) =
      some w) :
    ∀ r ∈ merge_events ex inc, r.ticket_url = some u → r = w := by
  intro r hr hru
  obtain ⟨hdk, hui⟩ := merge_dict_inv ex inc
  rcases List.mem_map.mp hr with ⟨p, hp, rfl⟩
  have h1 := (hui p hp).1
  rw [h1] at hru
  have hpu : p.1 = u := Option.some.inj hru
  have hpl : dictLookup u (inc.foldl (mergeStep (isNewFalseSlugs ex)) (indexByUrl ex)) =
      some p.2 := by
    refine dictLookup_of_mem_dkeys hdk ?_
    rw [← hpu]
    exact hp
  rw [hlk] at hpl
  exact (Option.some.inj hpl).symm

theorem mem_isNewFalseSlugs {ex : List Event} {E : Event} {s : String}
    (hE : E ∈ ex) (hs : E.slug = some s) (hse : s ≠ "") (hf : E.is_new = some false) :
    s ∈ isNewFalseSlugs ex := by
  unfold isNewFalseSlugs
  refine List.mem_filterMap.mpr ⟨E, hE, ?_⟩
  rw [hs]
  simp [hse, hf]

/-- C2 as frozen is false: with two existing events sharing a ticket_url,
the pin of the earlier one (is_new = False) is lost because the url index
keeps only the later one, so an incoming event at that url is not pinned. -/
theorem sticky_is_new_false_cex :
    ({ ticket_url := some "u", is_new := some false } : Event) ∈
        ([{ ticket_url := some "u", is_new := some false },
          { ticket_url := some "u", is_new := some true }] : List Event) ∧
    ({ ticket_url := some "u", is_new := some false } : Event).is_new = some false ∧
    strTruthy (some "u") = true ∧
    ({ ticket_url := some "u", venue := some "n" } : Event) ∈
        ([{ ticket_url := some "u", venue := some "n" }] : List Event) ∧
    (∃ r ∈ merge_events
        [{ ticket_url := some "u", is_new := some false },
         { ticket_url := some "u", is_new := some true }]
        [{ ticket_url := some "u", venue := some "n" }],
      r.ticket_url = some "u" ∧ r.is_new ≠ some false) := by
  decide

/-- C2 (amended): provided no two existing events share a truthy
ticket_url, a pinned is_new = False propagates: every merged event at a
pinned existing event's url is pinned false; every merged event at the url
of an incoming event whose slug matches a pinned existing event's truthy
slug is pinned false; and update_first_seen never touches an is_new that is
already False. -/
theorem sticky_is_new_false (ex inc : List Event)
    (hex : (ex.filterMap urlKey).Pairwise (fun a b => a ≠ b)) :
    (∀ E ∈ ex, E.is_new = some false → ∀ u, urlKey E = some u →
      ∀ r ∈ merge_events ex inc, r.ticket_url = some u → r.is_new = some false) ∧
    (∀ E ∈ ex, E.is_new = some false → ∀ s, E.slug = some s → s ≠ "" →
      ∀ n ∈ inc, ∀ u, urlKey n = some u → n.slug = some s →
        ∀ r ∈ merge_events ex inc, r.ticket_url = some u → r.is_new = some false) ∧
    (∀ (now : Int) (evs : List Event) (cache : List (String × String)) (i : Nat) (e : Event),
      evs[i]? = some e → e.is_new = some false →
      ∃ e', (update_first_seen now evs cache).1[i]? = some e' ∧ e'.is_new = e.is_new) := by
  refine ⟨?_, ?_, ?_⟩
  · intro E hE hf u hk r hr hru
    obtain ⟨w, hw, hwf⟩ := foldl_mergeStep_false (isNewFalseSlugs ex) inc _ E
      (indexByUrl_lookup_of_distinct hex hE hk) hf
    rw [result_at_url hw r hr hru]
    exact hwf
  · intro E hE hf s hs hse n hn u hk hnslug r hr hru
    have hpin : s ∈ isNewFalseSlugs ex := mem_isNewFalseSlugs hE hs hse hf
    obtain ⟨pre, post, rfl⟩ := List.append_of_mem hn
    have hins : dictLookup u (mergeStep (isNewFalseSlugs ex)
        (pre.foldl (mergeStep (isNewFalseSlugs ex)) (indexByUrl ex)) n) =
        some (mergePin (isNewFalseSlugs ex)
          (pre.foldl (mergeStep (isNewFalseSlugs ex)) (indexByUrl ex)) u n) := by
      unfold mergeStep
      rw [hk]
      exact dictLookup_insert_self _ _ _
    obtain ⟨w, hw, hwf⟩ := foldl_mergeStep_false (isNewFalseSlugs ex) post _ _ hins
      (mergePin_false_of_pin hpin _ u hnslug)
    have hfull : dictLookup u
        ((pre ++ n :: post).foldl (mergeStep (isNewFalseSlugs ex)) (indexByUrl ex)) =
        some w := by
      rw [List.foldl_append, List.foldl_cons]
      exact hw
    rw [result_at_url hfull r hr hru]
    exact hwf
  · intro now evs cache i e he hf
    obtain ⟨e', h1, _, _, h4, _⟩ := ufGo_index now evs cache 0 i e he
    exact ⟨e', h1, by rw [h4 hf, hf]⟩

/-- Witness for C2: an existing pinned event, an incoming event sharing its
url and an incoming event sharing its slug under a fresh url are all pinned
false after the merge, and update_first_seen keeps a pinned false. -/
theorem sticky_is_new_false_witness :
    (∀ E ∈ ([{ ticket_url := some "u", slug := some "s", is_new := some false }] : List Event),
      E.is_new = some false → ∀ u, urlKey E = some u →
      ∀ r ∈ merge_events
        [{ ticket_url := some "u", slug := some "s", is_new := some false }]
        [{ ticket_url := some "u" }, { ticket_url := some "v", slug := some "s" }],
        r.ticket_url = some u → r.is_new = some false) ∧
    (∀ E ∈ ([{ ticket_url := some "u", slug := some "s", is_new := some false }] : List Event),
      E.is_new = some false → ∀ s, E.slug = some s → s ≠ "" →
      ∀ n ∈ ([{ ticket_url := some "u" },
          { ticket_url := some "v", slug := some "s" }] : List Event),
        ∀ u, urlKey n = some u → n.slug = some s →
        ∀ r ∈ merge_events
          [{ ticket_url := some "u", slug := some "s", is_new := some false }]
          [{ ticket_url := some "u" }, { ticket_url := some "v", slug := some "s" }],
          r.ticket_url = some u → r.is_new = some false) ∧
    (∀ (now : Int) (evs : List Event) (cache : List (String × String)) (i : Nat) (e : Event),
      evs[i]? = some e → e.is_new = some false →
      ∃ e', (update_first_seen now evs cache).1[i]? = some e' ∧ e'.is_new = e.is_new) :=
  sticky_is_new_false
    [{ ticket_url := some "u", slug := some "s", is_new := some false }]
    [{ ticket_url := some "u" }, { ticket_url := some "v", slug := some "s" }]
    (by decide)

/-- C3: update_first_seen is idempotent on first_seen.  A second run over
the output of a first run (against the cache the first run produced, at any
later time) reproduces exactly the same first_seen on every event, and a
slug that already has a cache entry keeps that entry unchanged. -/
theorem update_first_seen_idempotent (now now2 : Int) (evs : List Event)
    (cache : List (String × String)) :
    ((update_first_seen now2 (update_first_seen now evs cache).1
        (update_first_seen now evs cache).2.1).1.map (fun e => e.first_seen) =
      (update_first_seen now evs cache).1.map (fun e => e.first_seen)) ∧
    (∀ s fs, dictLookup s cache = some fs →
      dictLookup s (update_first_seen now evs cache).2.1 = some fs) := by
  constructor
  · apply ufGo_stable
    intro e he s hs hse
    exact ufGo_consistent now evs cache 0 e he s hs hse
  · intro s fs h
    exact ufGo_cache_mono now evs cache 0 s fs h

/-- Witness for C3 at a concrete run: one cached slug, one new slug. -/
theorem update_first_seen_idempotent_witness :
    ((update_first_seen 500000
        (update_first_seen 0
          [{ slug := some "a" }, { slug := some "b" }] [("a", "42Z")]).1
        (update_first_seen 0
          [{ slug := some "a" }, { slug := some "b" }] [("a", "42Z")]).2.1).1.map
        (fun e => e.first_seen) =
      (update_first_seen 0
        [{ slug := some "a" }, { slug := some "b" }] [("a", "42Z")]).1.map
        (fun e => e.first_seen)) ∧
    (∀ s fs, dictLookup s [("a", "42Z")] = some fs →
      dictLookup s (update_first_seen 0
        [{ slug := some "a" }, { slug := some "b" }] [("a", "42Z")]).2.1 = some fs) :=
  update_first_seen_idempotent 0 500000
    [{ slug := some "a" }, { slug := some "b" }] [("a", "42Z")]

/-- C7: is_new derivation.  For an event with a truthy slug whose is_new is
not pinned False, update_first_seen sets is_new to true exactly when the
assigned first_seen parses to a timestamp within NEW_EVENT_DAYS of now
(in seconds: now - t <= NEW_EVENT_DAYS * 86400), and to false when
first_seen is unparseable, without raising. -/
theorem update_first_seen_is_new_window (now : Int) (evs : List Event)
    (cache : List (String × String)) (i : Nat) (e : Event)
    (he : evs[i]? = some e) (hs : strTruthy e.slug = true) (hn : e.is_new ≠ some false) :
    ∃ e' fs, (update_first_seen now evs cache).1[i]? = some e' ∧
      e'.first_seen = some fs ∧
      (e'.is_new = some true ↔
        ∃ t, parseTime fs = some t ∧ now - t ≤ NEW_EVENT_DAYS * 86400) ∧
      (parseTime fs = none → e'.is_new = some false) := by
  obtain ⟨s, hslug, hse⟩ : ∃ s, e.slug = some s ∧ s ≠ "" := by
    cases hsl : e.slug with
    | none => rw [hsl] at hs; simp [strTruthy] at hs
    | some s =>
      refine ⟨s, rfl, ?_⟩
      rw [hsl] at hs
      simp only [strTruthy] at hs
      intro he2
      rw [he2] at hs
      simp at hs
  obtain ⟨e', h1, _, _, _, h5⟩ := ufGo_index now evs cache 0 i e he
  obtain ⟨fs, hfs, hnew⟩ := h5 s hslug hse
  have hisnew := hnew hn
  refine ⟨e', fs, h1, hfs, ?_, ?_⟩
  · rw [hisnew]
    simp only [Option.some.injEq]
    unfold isNewOf
    cases hp : parseTime fs with
    | some t =>
      simp only [decide_eq_true_eq]
      constructor
      · intro h
        exact ⟨t, rfl, h⟩
      · rintro ⟨t', ht', h⟩
        have : t = t' := Option.some.inj ht'
        rw [this]
        exact h
    | none => simp
  · intro hp
    rw [hisnew]
    unfold isNewOf
    rw [hp]

/-- Witness for C7: a fresh event is new (first_seen stamped now, zero days
old), and the hypotheses are discharged at concrete inputs. -/
theorem update_first_seen_is_new_window_witness :
    ∃ e' fs, (update_first_seen 0 [{ slug := some "a" }] []).1[0]? = some e' ∧
      e'.first_seen = some fs ∧
      (e'.is_new = some true ↔
        ∃ t, parseTime fs = some t ∧ 0 - t ≤ NEW_EVENT_DAYS * 86400) ∧
      (parseTime fs = none → e'.is_new = some false) :=
  update_first_seen_is_new_window 0 [{ slug := some "a" }] [] 0 { slug := some "a" }
    rfl (by decide) (by decide)

/-- C9 as frozen is false: an event whose artists list is present but empty
makes generate_slug raise IndexError (`[][0]`) instead of returning a slug
with the "unknown" placeholder. -/
theorem generate_slug_unknown_cex :
    ({ artists := some ([] : List Artist) } : Event).artists = some [] ∧
    generate_slug { artists := some ([] : List Artist) } = none := by
  decide

/-- C9 (amended): generate_slug succeeds on every event whose artists list
is not present-but-empty, and uses the literal placeholder "unknown" as the
headliner component when the artists key is absent or the first artist has
no name; an event with a present-but-empty artists list makes slug
generation fail (IndexError on `[][0]`). -/
theorem generate_slug_unknown_default (e : Event) (h : e.artists ≠ some []) :
    ∃ s, generate_slug e = some s ∧
      ((e.artists = none ∨ (∃ a rest, e.artists = some (a :: rest) ∧ a.name = none)) →
        s = joinNonEmpty
          [e.date.getD "", slugify (e.venue.getD ""), slugify (e.stage.getD ""),
            "unknown"]) := by
  have hu : slugify "unknown" = "unknown" := by decide
  cases ha : e.artists with
  | none =>
    refine ⟨joinNonEmpty
        [e.date.getD "", slugify (e.venue.getD ""), slugify (e.stage.getD ""),
          slugify "unknown"], ?_, fun _ => by rw [hu]⟩
    simp [generate_slug, firstArtistName, ha]
  | some l =>
    cases l with
    | nil => exact absurd ha h
    | cons a rest =>
      cases hn : a.name with
      | none =>
        refine ⟨joinNonEmpty
            [e.date.getD "", slugify (e.venue.getD ""), slugify (e.stage.getD ""),
              slugify "unknown"], ?_, fun _ => by rw [hu]⟩
        simp [generate_slug, firstArtistName, ha, hn]
      | some nm =>
        refine ⟨joinNonEmpty
            [e.date.getD "", slugify (e.venue.getD ""), slugify (e.stage.getD ""),
              slugify nm], ?_, ?_⟩
        · simp [generate_slug, firstArtistName, ha, hn]
        rintro (hc | ⟨a', rest', hc, hname⟩)
        · cases hc
        · obtain ⟨h1, -⟩ := List.cons.inj (Option.some.inj hc)
          rw [← h1] at hname
          rw [hn] at hname
          cases hname

/-- Witness for C9 on an event with no artists key: the slug is produced
with the "unknown" placeholder. -/
theorem generate_slug_unknown_default_witness :
    ∃ s, generate_slug { date := some "2026-02-10", venue := some "The Earl" } = some s ∧
      ((({ date := some "2026-02-10", venue := some "The Earl" } : Event).artists = none ∨
        (∃ a rest, ({ date := some "2026-02-10", venue := some "The Earl" } : Event).artists =
          some (a :: rest) ∧ a.name = none)) →
        s = joinNonEmpty
          [(({ date := some "2026-02-10", venue := some "The Earl" } : Event)).date.getD "",
            slugify ((({ date := some "2026-02-10", venue := some "The Earl" } : Event)).venue.getD ""),
            slugify ((({ date := some "2026-02-10", venue := some "The Earl" } : Event)).stage.getD ""),
            "unknown"]) :=
  generate_slug_unknown_default { date := some "2026-02-10", venue := some "The Earl" }
    (by decide)

theorem toDigitsCore_append : ∀ (f n : Nat) (ds : List Char),
    Nat.toDigitsCore 10 f n ds = Nat.toDigitsCore 10 f n [] ++ ds := by
  intro f
  induction f with
  | zero => intro n ds; simp [Nat.toDigitsCore]
  | succ g ih =>
    intro n ds
    simp only [Nat.toDigitsCore]
    by_cases hd : n / 10 = 0
    · simp [hd]
    · simp only [hd, ite_false]
      rw [ih (n / 10) (Nat.digitChar (n % 10) :: ds), ih (n / 10) [Nat.digitChar (n % 10)]]
      simp

theorem toDigitsCore_fuel : ∀ (n f1 f2 : Nat), n < f1 → n < f2 → ∀ ds,
    Nat.toDigitsCore 10 f1 n ds = Nat.toDigitsCore 10 f2 n ds := by
  intro n
  induction n using Nat.strong_induction_on with
  | _ n ih =>
    intro f1 f2 h1 h2 ds
    cases f1 with
    | zero => omega
    | succ g1 =>
      cases f2 with
      | zero => omega
      | succ g2 =>
        simp only [Nat.toDigitsCore]
        by_cases hd : n / 10 = 0
        · simp [hd]
        · simp only [hd, ite_false]
          have hn0 : n ≠ 0 := by intro h; rw [h] at hd; simp at hd
          have hlt : n / 10 < n := Nat.div_lt_self (Nat.pos_of_ne_zero hn0) (by norm_num)
          exact ih (n / 10) hlt _ _ (by omega) (by omega) _

theorem charsVal_append_digit (l : List Char) (c : Char) :
    charsVal (l ++ [c]) = charsVal l * 10 + digitVal c := by
  simp [charsVal, List.foldl_append]

theorem digitVal_digitChar {m : Nat} (h : m < 10) :
    digitVal (Nat.digitChar m) = m := by
  interval_cases m <;> decide

theorem charsVal_toDigits : ∀ n : Nat, charsVal (Nat.toDigits 10 n) = n := by
  intro n
  induction n using Nat.strong_induction_on with
  | _ n ih =>
    unfold Nat.toDigits
    by_cases hd : n / 10 = 0
    · have hn : n < 10 := by omega
      simp only [Nat.toDigitsCore, hd, ite_true]
      rw [Nat.mod_eq_of_lt hn]
      simp [charsVal, digitVal_digitChar hn]
    · have hn0 : n ≠ 0 := by intro h; rw [h] at hd; simp at hd
      have hlt : n / 10 < n := Nat.div_lt_self (Nat.pos_of_ne_zero hn0) (by norm_num)
      simp only [Nat.toDigitsCore, hd, ite_false]
      rw [toDigitsCore_append]
      rw [toDigitsCore_fuel (n / 10) n (n / 10 + 1) (by omega) (Nat.lt_succ_self _) []]
      have hrepr : Nat.toDigitsCore 10 (n / 10 + 1) (n / 10) [] = Nat.toDigits 10 (n / 10) :=
        rfl
      rw [hrepr, charsVal_append_digit, ih (n / 10) hlt,
        digitVal_digitChar (Nat.mod_lt n (by norm_num))]
      omega

theorem natRepr_inj {m n : Nat} (h : Nat.repr m = Nat.repr n) : m = n := by
  have hd : Nat.toDigits 10 m = Nat.toDigits 10 n := by
    have hdata := congrArg String.data h
    simpa [Nat.repr, List.asString] using hdata
  have hv := congrArg charsVal hd
  rwa [charsVal_toDigits, charsVal_toDigits] at hv

/-- The slug assignment pass assigns to the events exactly the uniquified
base slugs, in order. -/
theorem slugAssignGo_map_slug : ∀ (evs : List Event) (bases : List String)
    (counts : List (String × Nat)), basesOf evs = some bases →
    ∃ out, slugAssignGo evs counts = some out ∧
      out.map (fun e => e.slug) = (assignLoop bases counts).map some := by
  intro evs
  induction evs with
  | nil =>
    intro bases counts hb
    simp only [basesOf, Option.some.injEq] at hb
    subst hb
    exact ⟨[], rfl, by simp [assignLoop]⟩
  | cons e rest ih =>
    intro bases counts hb
    cases hm : main_generate_slug e with
    | none => simp [basesOf, hm] at hb
    | some b =>
      cases hrest : basesOf rest with
      | none => simp [basesOf, hm, hrest] at hb
      | some bs =>
        simp only [basesOf, hm, hrest, Option.some.injEq] at hb
        subst hb
        cases hk : dictLookup b counts with
        | some k =>
          obtain ⟨out, hout, hmap⟩ := ih bs (dictInsert b (k + 1) counts) hrest
          refine ⟨{ e with slug := some (b ++ "-" ++ Nat.repr (k + 1)) } :: out, ?_, ?_⟩
          · simp only [slugAssignGo, hm, hk, hout]
          · simp only [List.map_cons, assignLoop, hk, hmap]
        | none =>
          obtain ⟨out, hout, hmap⟩ := ih bs (dictInsert b 0 counts) hrest
          refine ⟨{ e with slug := some b } :: out, ?_, ?_⟩
          · simp only [slugAssignGo, hm, hk, hout]
          · simp only [List.map_cons, assignLoop, hk, hmap]

/-- Inserting the counter for the next processed base slug keeps the
slug_counts dict in sync with occurrence counts of the processed prefix. -/
theorem countsInv_insert {pre : List String} {counts : List (String × Nat)} {b0 : String}
    (hinv : ∀ b, dictLookup b counts =
      if pre.count b = 0 then none else some (pre.count b - 1))
    {knew : Nat} (hknew : knew = pre.count b0) :
    ∀ b, dictLookup b (dictInsert b0 knew counts) =
      if (pre ++ [b0]).count b = 0 then none else some ((pre ++ [b0]).count b - 1) := by
  intro b
  by_cases hb : b = b0
  · subst hb
    rw [dictLookup_insert_self]
    have hcount : (pre ++ [b]).count b = pre.count b + 1 := by
      rw [List.count_append, List.count_singleton]
      simp
    rw [hcount]
    simp [hknew]
  · rw [dictLookup_insert_ne (fun hh => hb hh.symm)]
    have hcount : (pre ++ [b0]).count b = pre.count b := by
      rw [List.count_append, List.count_singleton]
      have : (b0 == b) = false := beq_eq_false_iff_ne.mpr (fun hh => hb hh.symm)
      rw [this]
      simp
    rw [hcount, hinv b]

/-- The uniquifying loop is fully deterministic: position `i` gets the base
slug when no earlier processed slug (prefix `pre` plus the earlier part of
this run) equals it, and otherwise the base suffixed with the occurrence
count. -/
theorem assignLoop_spec : ∀ (bases pre : List String) (counts : List (String × Nat)),
    (∀ b, dictLookup b counts =
      if pre.count b = 0 then none else some (pre.count b - 1)) →
    ∀ i, i < bases.length →
      (assignLoop bases counts)[i]? = some (
        if (pre ++ bases.take i).count (bases.getD i "") = 0 then bases.getD i ""
        else bases.getD i "" ++ "-" ++
          Nat.repr ((pre ++ bases.take i).count (bases.getD i ""))) := by
  intro bases
  induction bases with
  | nil => intro pre counts hinv i hi; simp at hi
  | cons b0 rest ih =>
    intro pre counts hinv i hi
    cases i with
    | zero =>
      have hc := hinv b0
      cases hk : dictLookup b0 counts with
      | none =>
        rw [hk] at hc
        have h0 : pre.count b0 = 0 := by
          by_contra hne
          rw [if_neg hne] at hc
          cases hc
        simp only [assignLoop, hk]
        simp [h0]
      | some k =>
        rw [hk] at hc
        have hne : pre.count b0 ≠ 0 := by
          by_contra h0
          rw [if_pos h0] at hc
          cases hc
        rw [if_neg hne] at hc
        have hkval : k + 1 = pre.count b0 := by
          have := Option.some.inj hc
          omega
        simp only [assignLoop, hk]
        simp [hne, hkval]
    | succ j =>
      have hj : j < rest.length := by simpa using hi
      have hfix1 : (b0 :: rest).getD (j + 1) "" = rest.getD j "" := by simp
      have hfix2 : pre ++ (b0 :: rest).take (j + 1) = (pre ++ [b0]) ++ rest.take j := by
        rw [List.take_succ_cons, List.append_assoc]
        rfl
      cases hk : dictLookup b0 counts with
      | some k =>
        have hc := hinv b0
        rw [hk] at hc
        have hne : pre.count b0 ≠ 0 := by
          by_contra h0
          rw [if_pos h0] at hc
          cases hc
        rw [if_neg hne] at hc
        have hkval : k + 1 = pre.count b0 := by
          have := Option.some.inj hc
          omega
        have hspec := ih (pre ++ [b0]) (dictInsert b0 (k + 1) counts)
          (countsInv_insert hinv hkval) j hj
        simp only [assignLoop, hk, List.getElem?_cons_succ]
        rw [hspec, hfix1, hfix2]
      | none =>
        have hc := hinv b0
        rw [hk] at hc
        have h0 : pre.count b0 = 0 := by
          by_contra hne
          rw [if_neg hne] at hc
          cases hc
        have hspec := ih (pre ++ [b0]) (dictInsert b0 0 counts)
          (countsInv_insert hinv h0.symm) j hj
        simp only [assignLoop, hk, List.getElem?_cons_succ]
        rw [hspec, hfix1, hfix2]

/-- Two occurrences of the same base slug receive distinct assigned slugs:
the occurrence counters differ, and a suffixed slug differs from the bare
base and from any differently-suffixed one. -/
theorem expectedSlug_ne {bases : List String} {i j : Nat} (hij : i < j)
    (hj : j < bases.length) (hb : bases.getD i "" = bases.getD j "") :
    expectedSlug bases i ≠ expectedSlug bases j := by
  have hi : i < bases.length := lt_trans hij hj
  have hcnt : (bases.take i).count (bases.getD j "") <
      (bases.take j).count (bases.getD j "") := by
    have hsplit : bases.take j = bases.take i ++ (bases.drop i).take (j - i) := by
      conv_lhs => rw [show j = i + (j - i) from by omega]
      exact List.take_add bases i (j - i)
    have hgd : bases.getD i "" = bases[i] := by
      simp [List.getD_eq_getElem?_getD, List.getElem?_eq_getElem hi]
    have hdrop : bases.drop i = bases.getD j "" :: bases.drop (i + 1) := by
      rw [List.drop_eq_getElem_cons hi]
      rw [← hgd, hb]
    rw [hsplit, List.count_append]
    have hone : 1 ≤ ((bases.drop i).take (j - i)).count (bases.getD j "") := by
      rw [hdrop]
      obtain ⟨m, hm⟩ : ∃ m, j - i = m + 1 := ⟨j - i - 1, by omega⟩
      rw [hm, List.take_succ_cons, List.count_cons]
      simp
    omega
  simp only [expectedSlug, hb]
  by_cases hki : (bases.take i).count (bases.getD j "") = 0
  · rw [if_pos hki, if_neg (by omega)]
    intro heq
    have hlen := congrArg String.length heq
    have h1 : ("-" : String).length = 1 := rfl
    rw [String.length_append, String.length_append, h1] at hlen
    omega
  · rw [if_neg hki, if_neg (by omega)]
    intro heq
    have hdata := congrArg String.data heq
    simp only [String.data_append, List.append_assoc] at hdata
    have h3 := List.append_cancel_left (List.append_cancel_left hdata)
    have hrepr : Nat.repr ((bases.take i).count (bases.getD j "")) =
        Nat.repr ((bases.take j).count (bases.getD j "")) := by
      apply String.ext
      exact h3
    exact absurd (natRepr_inj hrepr) (by omega)

/-- C8 as frozen is false: a base slug can coincide with an already
suffixed slug, producing a duplicate ("v-a", "v-a", "v-a-1" assigns
"v-a", "v-a-1", "v-a-1"). -/
theorem slug_uniqueness_cex :
    (assignSlugs
        [{ venue := some "v", artists := some [{ name := some "a" }] },
         { venue := some "v", artists := some [{ name := some "a" }] },
         { venue := some "v", artists := some [{ name := some "a 1" }] }]).map
      (fun out => out.map (fun e => e.slug)) =
      some [some "v-a", some "v-a-1", some "v-a-1"] ∧
    ¬ ([some "v-a", some "v-a-1", some "v-a-1"] : List (Option String)).Pairwise
      (fun a b => a ≠ b) := by
  decide

/-- C8 (amended): the slug assignment pass is deterministic: position `i`
receives its base slug on a first occurrence and the base suffixed with the
incrementing occurrence counter otherwise (in encounter order), and two
events sharing a base slug always receive distinct slugs.  Global pairwise
distinctness of all assigned slugs can still fail when one event's base
slug equals another's suffixed slug. -/
theorem slug_assignment_deterministic (evs : List Event) (bases : List String)
    (hb : basesOf evs = some bases) :
    (∃ out, assignSlugs evs = some out ∧
      out.map (fun e => e.slug) = (uniquifySlugs bases).map some) ∧
    (∀ i, i < bases.length → (uniquifySlugs bases)[i]? = some (expectedSlug bases i)) ∧
    (∀ i j, i < j → j < bases.length → bases.getD i "" = bases.getD j "" →
      expectedSlug bases i ≠ expectedSlug bases j) := by
  refine ⟨slugAssignGo_map_slug evs bases [] hb, ?_, ?_⟩
  · intro i hi
    have hspec := assignLoop_spec bases [] [] (by intro b; simp [dictLookup]) i hi
    simpa [uniquifySlugs, expectedSlug] using hspec
  · intro i j hij hj hbij
    exact expectedSlug_ne hij hj hbij

/-- Witness for C8 at a two-event run sharing a base slug: the first keeps
"v-a", the second gets "v-a-1", and they differ. -/
theorem slug_assignment_deterministic_witness :
    (∃ out, assignSlugs
        [{ venue := some "v", artists := some [{ name := some "a" }] },
         { venue := some "v", artists := some [{ name := some "a" }] }] = some out ∧
      out.map (fun e => e.slug) = (uniquifySlugs ["v-a", "v-a"]).map some) ∧
    (∀ i, i < (["v-a", "v-a"] : List String).length →
      (uniquifySlugs ["v-a", "v-a"])[i]? = some (expectedSlug ["v-a", "v-a"] i)) ∧
    (∀ i j, i < j → j < (["v-a", "v-a"] : List String).length →
      (["v-a", "v-a"] : List String).getD i "" = (["v-a", "v-a"] : List String).getD j "" →
      expectedSlug ["v-a", "v-a"] i ≠ expectedSlug ["v-a", "v-a"] j) :=
  slug_assignment_deterministic
    [{ venue := some "v", artists := some [{ name := some "a" }] },
     { venue := some "v", artists := some [{ name := some "a" }] }]
    ["v-a", "v-a"] (by decide)

theorem byMonthStep_dkeys {d : List (String × List Event)} (hd : DKeys d) (e : Event) :
    DKeys (byMonthStep d e) := by
  unfold byMonthStep
  by_cases h7 : (dateStr e).length ≥ 7
  · rw [if_pos h7]
    cases hl : dictLookup (monthKey e) d <;> exact dkeys_insert hd _ _
  · rw [if_neg h7]
    exact hd

theorem foldl_byMonthStep_dkeys : ∀ (es : List Event) (d : List (String × List Event)),
    DKeys d → DKeys (es.foldl byMonthStep d) := by
  intro es
  induction es with
  | nil => intro d hd; exact hd
  | cons x rest ih => intro d hd; exact ih _ (byMonthStep_dkeys hd x)

theorem byMonthStep_inv {Q : Event → Prop} {d : List (String × List Event)} {x : Event}
    (hx : Q x)
    (hd : ∀ p ∈ d, ∀ e ∈ p.2, Q e ∧ (dateStr e).length ≥ 7 ∧ monthKey e = p.1) :
    ∀ p ∈ byMonthStep d x, ∀ e ∈ p.2,
      Q e ∧ (dateStr e).length ≥ 7 ∧ monthKey e = p.1 := by
  by_cases h7 : (dateStr x).length ≥ 7
  · cases hlk : dictLookup (monthKey x) d with
    | some l =>
      have hstep : byMonthStep d x = dictInsert (monthKey x) (l ++ [x]) d := by
        simp only [byMonthStep, if_pos h7, hlk]
      rw [hstep]
      intro p hp e he
      rcases mem_dictInsert_cases hp with h1 | h1
      · subst h1
        rcases List.mem_append.mp he with h2 | h2
        · exact hd _ (dictLookup_mem hlk) e h2
        · rw [List.mem_singleton.mp h2]
          exact ⟨hx, h7, rfl⟩
      · exact hd p h1 e he
    | none =>
      have hstep : byMonthStep d x = dictInsert (monthKey x) [x] d := by
        simp only [byMonthStep, if_pos h7, hlk]
      rw [hstep]
      intro p hp e he
      rcases mem_dictInsert_cases hp with h1 | h1
      · subst h1
        rw [List.mem_singleton.mp he]
        exact ⟨hx, h7, rfl⟩
      · exact hd p h1 e he
  · have hstep : byMonthStep d x = d := by
      simp only [byMonthStep, if_neg h7]
    rw [hstep]
    exact hd

theorem foldl_byMonthStep_mem (Q : Event → Prop) :
    ∀ (es : List Event) (d : List (String × List Event)),
      (∀ e ∈ es, Q e) →
      (∀ p ∈ d, ∀ e ∈ p.2, Q e ∧ (dateStr e).length ≥ 7 ∧ monthKey e = p.1) →
      ∀ p ∈ es.foldl byMonthStep d, ∀ e ∈ p.2,
        Q e ∧ (dateStr e).length ≥ 7 ∧ monthKey e = p.1 := by
  intro es
  induction es with
  | nil => intro d _ hd; exact hd
  | cons x rest ih =>
    intro d hes hd
    simp only [List.foldl_cons]
    exact ih _ (fun e he => hes e (List.mem_cons_of_mem _ he))
      (byMonthStep_inv (hes x (List.mem_cons_self _ _)) hd)

theorem byMonthStep_mono {d : List (String × List Event)} {m : String} {e : Event}
    (x : Event) (h : ∃ l, dictLookup m d = some l ∧ e ∈ l) :
    ∃ l', dictLookup m (byMonthStep d x) = some l' ∧ e ∈ l' := by
  obtain ⟨l, hl, hel⟩ := h
  unfold byMonthStep
  by_cases h7 : (dateStr x).length ≥ 7
  · rw [if_pos h7]
    by_cases hm : monthKey x = m
    · subst hm
      cases hlk : dictLookup (monthKey x) d with
      | some l0 =>
        rw [hlk] at hl
        cases hl
        exact ⟨l ++ [x], dictLookup_insert_self _ _ _, List.mem_append_left _ hel⟩
      | none => rw [hlk] at hl; cases hl
    · cases hlk : dictLookup (monthKey x) d <;>
        exact ⟨l, by rw [dictLookup_insert_ne hm]; exact hl, hel⟩
  · rw [if_neg h7]
    exact ⟨l, hl, hel⟩

theorem foldl_byMonthStep_mono : ∀ (es : List Event) (d : List (String × List Event))
    (m : String) (e : Event), (∃ l, dictLookup m d = some l ∧ e ∈ l) →
    ∃ l', dictLookup m (es.foldl byMonthStep d) = some l' ∧ e ∈ l' := by
  intro es
  induction es with
  | nil => intro d m e h; exact h
  | cons x rest ih => intro d m e h; exact ih _ m e (byMonthStep_mono x h)

theorem foldl_byMonthStep_complete : ∀ (es : List Event) (d : List (String × List Event))
    (e : Event), e ∈ es → (dateStr e).length ≥ 7 →
    ∃ l, dictLookup (monthKey e) (es.foldl byMonthStep d) = some l ∧ e ∈ l := by
  intro es
  induction es with
  | nil => intro d e he; simp at he
  | cons x rest ih =>
    intro d e he h7
    rcases List.mem_cons.mp he with rfl | hrest
    · refine foldl_byMonthStep_mono rest _ _ _ ?_
      unfold byMonthStep
      rw [if_pos h7]
      cases hlk : dictLookup (monthKey e) d with
      | some l =>
        exact ⟨l ++ [e], dictLookup_insert_self _ _ _, List.mem_append_right _
          (List.mem_singleton.mpr rfl)⟩
      | none => exact ⟨[e], dictLookup_insert_self _ _ _, List.mem_singleton.mpr rfl⟩
    · exact ih _ e hrest h7

theorem archStep_lookup_ne {ar : List (String × List Event)} {q : String × List Event}
    {m : String} (h : q.1 ≠ m) :
    dictLookup m (archStep ar q) = dictLookup m ar := by
  simp only [archStep]
  split
  · exact dictLookup_insert_ne h _ ar
  · rfl

theorem archStep_lookup_self (ar : List (String × List Event)) (q : String × List Event) :
    dictLookup q.1 (archStep ar q) = archAt q.2 (dictLookup q.1 ar) := by
  simp only [archStep, archAt]
  by_cases h : (q.2.filter (fun ev =>
      !(decide (ev.slug ∈ ((dictLookup q.1 ar).getD []).map Event.slug)))).length > 0
  · rw [if_pos h, if_pos h, dictLookup_insert_self]
  · rw [if_neg h, if_neg h]

theorem foldl_archStep_lookup_ne : ∀ (groups : List (String × List Event))
    (ar : List (String × List Event)) (m : String),
    (∀ p ∈ groups, p.1 ≠ m) →
    dictLookup m (groups.foldl archStep ar) = dictLookup m ar := by
  intro groups
  induction groups with
  | nil => intro ar m _; rfl
  | cons q rest ih =>
    intro ar m hg
    simp only [List.foldl_cons]
    rw [ih _ m (fun p hp => hg p (List.mem_cons_of_mem _ hp))]
    exact archStep_lookup_ne (hg q (List.mem_cons_self _ _))

theorem foldl_archStep_lookup : ∀ (groups : List (String × List Event))
    (ar : List (String × List Event)), DKeys groups →
    ∀ p ∈ groups, dictLookup p.1 (groups.foldl archStep ar) =
      archAt p.2 (dictLookup p.1 ar) := by
  intro groups
  induction groups with
  | nil => intro ar _ p hp; simp at hp
  | cons q rest ih =>
    intro ar hdk p hp
    obtain ⟨hq, hrest⟩ := List.pairwise_cons.mp hdk
    simp only [List.foldl_cons]
    rcases List.mem_cons.mp hp with rfl | h1
    · rw [foldl_archStep_lookup_ne rest _ p.1 ?_]
      · exact archStep_lookup_self ar p
      · intro r hr
        have := hq r.1 (List.mem_map_of_mem Prod.fst hr)
        exact fun hh => this hh.symm
    · rw [ih _ hrest p h1, archStep_lookup_ne ?_]
      exact hq p.1 (List.mem_map_of_mem Prod.fst h1)

/-- charListLt is the lexicographic order on character lists. -/
theorem charListLt_iff : ∀ (as bs : List Char), charListLt as bs = true ↔ as < bs := by
  intro as
  induction as with
  | nil =>
    intro bs
    cases bs with
    | nil =>
      constructor
      · intro h
        rw [show charListLt [] [] = false from rfl] at h
        cases h
      · intro h
        exact absurd h (List.Lex.not_nil_right _ _)
    | cons b bs =>
      constructor
      · intro _
        exact List.nil_lt_cons b bs
      · intro _
        rfl
  | cons a as ih =>
    intro bs
    cases bs with
    | nil =>
      constructor
      · intro h
        rw [show charListLt (a :: as) [] = false from rfl] at h
        cases h
      · intro h
        exact absurd h (List.Lex.not_nil_right _ _)
    | cons b bs =>
      rw [show charListLt (a :: as) (b :: bs) =
        (if a < b then true else if b < a then false else charListLt as bs) from rfl]
      by_cases hab : a < b
      · rw [if_pos hab]
        exact ⟨fun _ => List.Lex.rel hab, fun _ => rfl⟩
      · by_cases hba : b < a
        · rw [if_neg hab, if_pos hba]
          constructor
          · intro h
            cases h
          · intro h
            cases h with
            | cons h => exact absurd hba (lt_irrefl _)
            | rel h => exact absurd h hab
        · have heq : a = b := le_antisymm (le_of_not_lt hba) (le_of_not_lt hab)
          subst heq
          rw [if_neg hab, if_neg hba, ih bs]
          constructor
          · intro h
            exact List.Lex.cons h
          · intro h
            cases h with
            | cons h => exact h
            | rel h => exact absurd h (lt_irrefl _)

/-- Bridge to the String order: charListLt on the data lists is String `<`. -/
theorem charListLt_string_iff (s t : String) :
    charListLt s.data t.data = true ↔ s < t :=
  (charListLt_iff s.data t.data).trans String.lt_iff_toList_lt.symm

/-- Bridge to the String order: failure of charListLt is String `≤` the
other way around. -/
theorem charListLt_string_le (s t : String) :
    charListLt t.data s.data = false ↔ s ≤ t := by
  rw [← not_lt]
  constructor
  · intro h hc
    rw [(charListLt_string_iff t s).mpr hc] at h
    cases h
  · intro h
    by_contra hb
    rw [Bool.not_eq_false] at hb
    exact h ((charListLt_string_iff t s).mp hb)

theorem insertSorted_perm {α : Type} (le : α → α → Bool) (x : α) :
    ∀ l : List α, (insertSorted le x l).Perm (x :: l) := by
  intro l
  induction l with
  | nil => exact List.Perm.refl _
  | cons y ys ih =>
    unfold insertSorted
    by_cases h : le x y
    · rw [if_pos h]
    · rw [if_neg h]
      exact (ih.cons y).trans (List.Perm.swap x y ys)

theorem stableSort_perm {α : Type} (le : α → α → Bool) :
    ∀ l : List α, (stableSort le l).Perm l := by
  intro l
  induction l with
  | nil => exact List.Perm.refl _
  | cons x xs ih =>
    show (insertSorted le x (stableSort le xs)).Perm (x :: xs)
    exact (insertSorted_perm le x _).trans (ih.cons x)

theorem insertSorted_pairwise {α : Type} {le : α → α → Bool}
    (htrans : ∀ a b c, le a b = true → le b c = true → le a c = true)
    (htotal : ∀ a b, le a b = true ∨ le b a = true) (x : α) :
    ∀ {l : List α}, l.Pairwise (fun a b => le a b = true) →
      (insertSorted le x l).Pairwise (fun a b => le a b = true) := by
  intro l
  induction l with
  | nil => intro _; simp [insertSorted]
  | cons y ys ih =>
    intro hl
    obtain ⟨hy, hys⟩ := List.pairwise_cons.mp hl
    unfold insertSorted
    by_cases h : le x y
    · rw [if_pos h]
      refine List.pairwise_cons.mpr ⟨?_, hl⟩
      intro z hz
      rcases List.mem_cons.mp hz with rfl | hz
      · exact h
      · exact htrans x y z h (hy z hz)
    · rw [if_neg h]
      have hyx : le y x = true := (htotal x y).resolve_left h
      refine List.pairwise_cons.mpr ⟨?_, ih hys⟩
      intro z hz
      rcases List.mem_cons.mp ((insertSorted_perm le x ys).mem_iff.mp hz) with rfl | hz
      · exact hyx
      · exact hy z hz

theorem stableSort_pairwise {α : Type} {le : α → α → Bool}
    (htrans : ∀ a b c, le a b = true → le b c = true → le a c = true)
    (htotal : ∀ a b, le a b = true ∨ le b a = true) :
    ∀ l : List α, (stableSort le l).Pairwise (fun a b => le a b = true) := by
  intro l
  induction l with
  | nil => simp [stableSort]
  | cons x xs ih =>
    show (insertSorted le x (stableSort le xs)).Pairwise _
    exact insertSorted_pairwise htrans htotal x ih

theorem byDateDesc_le {a b : Event} (h : byDateDesc a b = true) :
    dateStr b ≤ dateStr a := by
  simp only [byDateDesc, Bool.not_eq_true'] at h
  exact (charListLt_string_le _ _).mp h

theorem byDateDesc_of_le {a b : Event} (h : dateStr b ≤ dateStr a) :
    byDateDesc a b = true := by
  simp only [byDateDesc, Bool.not_eq_true']
  exact (charListLt_string_le _ _).mpr h

theorem byDateDesc_trans : ∀ (a b c : Event), byDateDesc a b = true →
    byDateDesc b c = true → byDateDesc a c = true := by
  intro a b c h1 h2
  exact byDateDesc_of_le (le_trans (byDateDesc_le h2) (byDateDesc_le h1))

theorem byDateDesc_total : ∀ (a b : Event),
    byDateDesc a b = true ∨ byDateDesc b a = true := by
  intro a b
  rcases le_total (dateStr b) (dateStr a) with h | h
  · exact Or.inl (byDateDesc_of_le h)
  · exact Or.inr (byDateDesc_of_le h)

/-- Elements appended to a month bucket all come from the month's group and
have a slug not already present in the bucket; a predicate failing on all of
them keeps its bucket count unchanged. -/
theorem archAt_countP (group : List Event) (o : Option (List Event)) (p : Event → Bool)
    (hp : ∀ x ∈ group, (!(decide (x.slug ∈ (o.getD []).map Event.slug))) = true →
      p x = false) :
    ((archAt group o).getD []).countP p = (o.getD []).countP p := by
  unfold archAt
  by_cases happ : (group.filter (fun ev =>
      !(decide (ev.slug ∈ (o.getD []).map Event.slug)))).length > 0
  · rw [if_pos happ]
    simp only [Option.getD_some]
    rw [(stableSort_perm byDateDesc _).countP_eq p, List.countP_append]
    have hzero : (group.filter (fun ev =>
        !(decide (ev.slug ∈ (o.getD []).map Event.slug)))).countP p = 0 := by
      rw [List.countP_eq_zero]
      intro x hx
      obtain ⟨hxg, hxf⟩ := List.mem_filter.mp hx
      rw [hp x hxg hxf]
      simp
    rw [hzero]
    omega
  · rw [if_neg happ]

/-- C4: archive idempotence.  With pairwise-distinct slugs in every stored
bucket: re-archiving an event whose slug is already in its month's bucket
never adds a second copy (the count of its slug in the bucket is
preserved); when every past well-dated event is already present (a re-run
of the same rotation), every bucket keeps pairwise-distinct slugs; and any
bucket whose stored value changed this run is sorted by date descending. -/
theorem archive_idempotent (today : String) (archives : List (String × List Event))
    (events : List Event)
    (H1 : ∀ m l, dictLookup m archives = some l →
      (l.map Event.slug).Pairwise (fun a b => a ≠ b)) :
    (∀ e ∈ events, dateStr e < today → (dateStr e).length ≥ 7 →
      e.slug ∈ ((dictLookup (monthKey e) archives).getD []).map Event.slug →
      slugCount e.slug ((dictLookup (monthKey e)
        (archive_past_events today archives events).2.1).getD []) =
        slugCount e.slug ((dictLookup (monthKey e) archives).getD [])) ∧
    ((∀ e ∈ events, dateStr e < today → (dateStr e).length ≥ 7 →
        e.slug ∈ ((dictLookup (monthKey e) archives).getD []).map Event.slug) →
      ∀ m l', dictLookup m (archive_past_events today archives events).2.1 = some l' →
        (l'.map Event.slug).Pairwise (fun a b => a ≠ b)) ∧
    (∀ m, dictLookup m (archive_past_events today archives events).2.1 ≠
        dictLookup m archives →
      ∃ l', dictLookup m (archive_past_events today archives events).2.1 = some l' ∧
        l'.Pairwise (fun a b => dateStr b ≤ dateStr a)) := by
  have harch : (archive_past_events today archives events).2.1 =
      ((events.filter (fun e => charListLt (dateStr e).data today.data)).foldl
        byMonthStep []).foldl archStep archives := rfl
  have hdk : DKeys ((events.filter (fun e => charListLt (dateStr e).data today.data)).foldl
      byMonthStep []) :=
    foldl_byMonthStep_dkeys _ [] (by simp [DKeys])
  refine ⟨?_, ?_, ?_⟩
  · intro e he hpast h7 hslug
    rw [harch]
    have hne : e ∈ events.filter (fun x => charListLt (dateStr x).data today.data) :=
      List.mem_filter.mpr ⟨he, (charListLt_string_iff _ _).mpr hpast⟩
    obtain ⟨l, hl, _⟩ := foldl_byMonthStep_complete _ [] e hne h7
    have hlook := foldl_archStep_lookup _ archives hdk (monthKey e, l) (dictLookup_mem hl)
    rw [hlook]
    simp only [slugCount]
    refine archAt_countP l _ _ ?_
    intro x _ hxf
    have hxs : x.slug ∉ ((dictLookup (monthKey e) archives).getD []).map Event.slug := by
      simpa using hxf
    simp only [decide_eq_false_iff_not]
    intro hcon
    exact hxs (hcon ▸ hslug)
  · intro hfull m l' hl'
    suffices hsame : dictLookup m (archive_past_events today archives events).2.1 =
        dictLookup m archives by
      rw [hsame] at hl'
      exact H1 m l' hl'
    rw [harch]
    by_cases hm : ∀ p ∈ (events.filter (fun e => charListLt (dateStr e).data today.data)).foldl
        byMonthStep [], p.1 ≠ m
    · exact foldl_archStep_lookup_ne _ _ _ hm
    · push_neg at hm
      obtain ⟨p, hp, rfl⟩ := hm
      rw [foldl_archStep_lookup _ _ hdk p hp]
      have hgm := foldl_byMonthStep_mem
        (fun e => e ∈ events.filter (fun x => charListLt (dateStr x).data today.data))
        _ [] (fun e he => he) (by intro q hq; simp at hq) p hp
      have happ : p.2.filter (fun ev =>
          !(decide (ev.slug ∈ ((dictLookup p.1 archives).getD []).map Event.slug))) = [] := by
        rw [List.filter_eq_nil_iff]
        intro x hx
        obtain ⟨hxm, h7x, hmx⟩ := hgm x hx
        obtain ⟨hxev, hxp⟩ := List.mem_filter.mp hxm
        have hin := hfull x hxev ((charListLt_string_iff _ _).mp hxp) h7x
        rw [hmx] at hin
        intro hbad
        rw [Bool.not_eq_true', decide_eq_false_iff_not] at hbad
        exact hbad hin
      simp only [archAt]
      rw [happ]
      simp
  · intro m hne
    rw [harch] at hne ⊢
    by_cases hm : ∀ p ∈ (events.filter (fun e => charListLt (dateStr e).data today.data)).foldl
        byMonthStep [], p.1 ≠ m
    · exact absurd (foldl_archStep_lookup_ne _ _ _ hm) hne
    · push_neg at hm
      obtain ⟨p, hp, rfl⟩ := hm
      have hlook := foldl_archStep_lookup _ archives hdk p hp
      by_cases happ : (p.2.filter (fun ev =>
          !(decide (ev.slug ∈ ((dictLookup p.1 archives).getD []).map Event.slug)))).length
          > 0
      · refine ⟨_, by rw [hlook]; simp only [archAt]; rw [if_pos happ], ?_⟩
        have hsorted := stableSort_pairwise byDateDesc_trans byDateDesc_total
          ((dictLookup p.1 archives).getD [] ++ p.2.filter (fun ev =>
            !(decide (ev.slug ∈ ((dictLookup p.1 archives).getD []).map Event.slug))))
        refine hsorted.imp ?_
        intro a b hab
        exact byDateDesc_le hab
      · rw [hlook] at hne
        simp only [archAt] at hne
        rw [if_neg happ] at hne
        exact absurd rfl hne

/-- Witness for C4: re-archiving an event already present in its bucket
changes nothing. -/
theorem archive_idempotent_witness :
    (∀ e ∈ ([{ date := some "2025-01-05", slug := some "a" }] : List Event),
      dateStr e < "2026-10-12" → (dateStr e).length ≥ 7 →
      e.slug ∈ ((dictLookup (monthKey e)
        [("2025-01", [{ date := some "2025-01-05", slug := some "a" }])]).getD []).map
        Event.slug →
      slugCount e.slug ((dictLookup (monthKey e)
        (archive_past_events "2026-10-12"
          [("2025-01", [{ date := some "2025-01-05", slug := some "a" }])]
          [{ date := some "2025-01-05", slug := some "a" }]).2.1).getD []) =
        slugCount e.slug ((dictLookup (monthKey e)
          [("2025-01", [{ date := some "2025-01-05", slug := some "a" }])]).getD [])) ∧
    ((∀ e ∈ ([{ date := some "2025-01-05", slug := some "a" }] : List Event),
        dateStr e < "2026-10-12" → (dateStr e).length ≥ 7 →
        e.slug ∈ ((dictLookup (monthKey e)
          [("2025-01", [{ date := some "2025-01-05", slug := some "a" }])]).getD []).map
          Event.slug) →
      ∀ m l', dictLookup m (archive_past_events "2026-10-12"
          [("2025-01", [{ date := some "2025-01-05", slug := some "a" }])]
          [{ date := some "2025-01-05", slug := some "a" }]).2.1 = some l' →
        (l'.map Event.slug).Pairwise (fun a b => a ≠ b)) ∧
    (∀ m, dictLookup m (archive_past_events "2026-10-12"
          [("2025-01", [{ date := some "2025-01-05", slug := some "a" }])]
          [{ date := some "2025-01-05", slug := some "a" }]).2.1 ≠
        dictLookup m [("2025-01", [{ date := some "2025-01-05", slug := some "a" }])] →
      ∃ l', dictLookup m (archive_past_events "2026-10-12"
          [("2025-01", [{ date := some "2025-01-05", slug := some "a" }])]
          [{ date := some "2025-01-05", slug := some "a" }]).2.1 = some l' ∧
        l'.Pairwise (fun a b => dateStr b ≤ dateStr a)) :=
  archive_idempotent "2026-10-12"
    [("2025-01", [{ date := some "2025-01-05", slug := some "a" }])]
    [{ date := some "2025-01-05", slug := some "a" }]
    (by
      intro m l h
      simp only [dictLookup] at h
      split at h
      · obtain rfl := (Option.some.inj h).symm
        simp
      · cases h)

/-- C5 as frozen is false: a short malformed date that compares below today
("2024") is removed from the live set entirely (neither archived nor
upcoming), and a malformed 7+-character date below today ("0000-13") is
archived into a garbage month bucket rather than staying live. -/
theorem archive_malformed_cex :
    dateStr ({ date := some "2024", slug := some "s1" } : Event) < "2026-10-12" ∧
    (dateStr ({ date := some "2024", slug := some "s1" } : Event)).length < 7 ∧
    ({ date := some "2024", slug := some "s1" } : Event) ∉
      (archive_past_events "2026-10-12" []
        [{ date := some "2024", slug := some "s1" },
         { date := some "0000-13", slug := some "s2" }]).1 ∧
    dictLookup "0000-13" (archive_past_events "2026-10-12" []
        [{ date := some "2024", slug := some "s1" },
         { date := some "0000-13", slug := some "s2" }]).2.1 =
      some [{ date := some "0000-13", slug := some "s2" }] :=
  ⟨(charListLt_string_iff _ _).mp (by decide), by decide, by decide, by decide⟩

/-- C5 (amended): archive_past_events is total (never raises) and treats a
malformed date by its string comparison with today: a date comparing at or
above today stays in the returned upcoming list and no bucket gains a copy
of the event; a date comparing below today is removed from upcoming, and
then a date shorter than 7 characters is silently dropped (no bucket gains
a copy of the event), while a date with at least 7 characters is archived
into the bucket keyed by its first 7 characters (when its slug is not
already there). -/
theorem archive_malformed_dates (today : String) (archives : List (String × List Event))
    (events : List Event) (e : Event) (he : e ∈ events) :
    (¬(dateStr e < today) → e ∈ (archive_past_events today archives events).1 ∧
      ∀ m, evCount e ((dictLookup m
        (archive_past_events today archives events).2.1).getD []) =
        evCount e ((dictLookup m archives).getD [])) ∧
    (dateStr e < today → e ∉ (archive_past_events today archives events).1) ∧
    (dateStr e < today → (dateStr e).length < 7 →
      ∀ m, evCount e ((dictLookup m
        (archive_past_events today archives events).2.1).getD []) =
        evCount e ((dictLookup m archives).getD [])) ∧
    (dateStr e < today → (dateStr e).length ≥ 7 →
      e.slug ∉ ((dictLookup (monthKey e) archives).getD []).map Event.slug →
      ∃ l', dictLookup (monthKey e)
        (archive_past_events today archives events).2.1 = some l' ∧ e ∈ l') := by
  have harch : (archive_past_events today archives events).2.1 =
      ((events.filter (fun x => charListLt (dateStr x).data today.data)).foldl
        byMonthStep []).foldl archStep archives := rfl
  have hup : (archive_past_events today archives events).1 =
      events.filter (fun x => !(charListLt (dateStr x).data today.data)) := rfl
  have hdk : DKeys ((events.filter (fun x => charListLt (dateStr x).data today.data)).foldl
      byMonthStep []) :=
    foldl_byMonthStep_dkeys _ [] (by simp [DKeys])
  refine ⟨?_, ?_, ?_, ?_⟩
  · intro h
    refine ⟨?_, ?_⟩
    · rw [hup]
      refine List.mem_filter.mpr ⟨he, ?_⟩
      have hf : charListLt (dateStr e).data today.data = false := by
        by_contra hb
        rw [Bool.not_eq_false] at hb
        exact h ((charListLt_string_iff _ _).mp hb)
      rw [hf]
      rfl
    · intro m
      rw [harch]
      by_cases hm : ∀ p ∈ (events.filter
          (fun x => charListLt (dateStr x).data today.data)).foldl byMonthStep [], p.1 ≠ m
      · rw [foldl_archStep_lookup_ne _ _ _ hm]
      · push_neg at hm
        obtain ⟨p, hp, rfl⟩ := hm
        rw [foldl_archStep_lookup _ _ hdk p hp]
        have hgm := foldl_byMonthStep_mem
          (fun x => charListLt (dateStr x).data today.data = true)
          _ [] (fun x hx => (List.mem_filter.mp hx).2)
          (by intro q hq; simp at hq) p hp
        simp only [evCount]
        refine archAt_countP p.2 _ _ ?_
        intro x hx _
        obtain ⟨hQx, -, -⟩ := hgm x hx
        simp only [decide_eq_false_iff_not]
        intro hxe
        rw [hxe] at hQx
        exact h ((charListLt_string_iff _ _).mp hQx)
  · intro h hmem
    rw [hup] at hmem
    have hpred := (List.mem_filter.mp hmem).2
    rw [(charListLt_string_iff _ _).mpr h] at hpred
    cases hpred
  · intro hpast h7small m
    rw [harch]
    by_cases hm : ∀ p ∈ (events.filter (fun x => charListLt (dateStr x).data today.data)).foldl
        byMonthStep [], p.1 ≠ m
    · rw [foldl_archStep_lookup_ne _ _ _ hm]
    · push_neg at hm
      obtain ⟨p, hp, rfl⟩ := hm
      rw [foldl_archStep_lookup _ _ hdk p hp]
      have hgm := foldl_byMonthStep_mem (fun _ => True)
        _ [] (fun _ _ => trivial) (by intro q hq; simp at hq) p hp
      simp only [evCount]
      refine archAt_countP p.2 _ _ ?_
      intro x hx _
      obtain ⟨-, h7x, -⟩ := hgm x hx
      simp only [decide_eq_false_iff_not]
      intro hxe
      rw [hxe] at h7x
      omega
  · intro hpast h7 hnot
    rw [harch]
    have hne : e ∈ events.filter (fun x => charListLt (dateStr x).data today.data) :=
      List.mem_filter.mpr ⟨he, (charListLt_string_iff _ _).mpr hpast⟩
    obtain ⟨l, hl, hel⟩ := foldl_byMonthStep_complete _ [] e hne h7
    rw [foldl_archStep_lookup _ archives hdk (monthKey e, l) (dictLookup_mem hl)]
    have hkeep : (!(decide (e.slug ∈
        ((dictLookup (monthKey e) archives).getD []).map Event.slug))) = true := by
      rw [decide_eq_false hnot]
      rfl
    have hmemf : e ∈ l.filter (fun ev => !(decide (ev.slug ∈
        ((dictLookup (monthKey e) archives).getD []).map Event.slug))) :=
      List.mem_filter.mpr ⟨hel, hkeep⟩
    have hpos : (l.filter (fun ev => !(decide (ev.slug ∈
        ((dictLookup (monthKey e) archives).getD []).map Event.slug)))).length > 0 :=
      List.length_pos.mpr (List.ne_nil_of_mem hmemf)
    refine ⟨_, by simp only [archAt]; rw [if_pos hpos], ?_⟩
    rw [(stableSort_perm byDateDesc _).mem_iff]
    exact List.mem_append_right _ hmemf

/-- Witness for C5: over the same input list, a well-dated past event is
removed from upcoming and lands in its month bucket, and a future-dated
event stays upcoming with every bucket count for it unchanged; both are
instances of the claim theorem. -/
theorem archive_malformed_dates_witness :
    ((¬(dateStr ({ date := some "2020-01-01", slug := some "x" } : Event) < "2026-10-12") →
      ({ date := some "2020-01-01", slug := some "x" } : Event) ∈
        (archive_past_events "2026-10-12" []
          [{ date := some "2020-01-01", slug := some "x" },
           { date := some "2026-12-31", slug := some "y" }]).1 ∧
      ∀ m, evCount { date := some "2020-01-01", slug := some "x" }
        ((dictLookup m (archive_past_events "2026-10-12" []
          [{ date := some "2020-01-01", slug := some "x" },
           { date := some "2026-12-31", slug := some "y" }]).2.1).getD []) =
        evCount { date := some "2020-01-01", slug := some "x" }
          ((dictLookup m ([] : List (String × List Event))).getD [])) ∧
    (dateStr ({ date := some "2020-01-01", slug := some "x" } : Event) < "2026-10-12" →
      ({ date := some "2020-01-01", slug := some "x" } : Event) ∉
        (archive_past_events "2026-10-12" []
          [{ date := some "2020-01-01", slug := some "x" },
           { date := some "2026-12-31", slug := some "y" }]).1) ∧
    (dateStr ({ date := some "2020-01-01", slug := some "x" } : Event) < "2026-10-12" →
      (dateStr ({ date := some "2020-01-01", slug := some "x" } : Event)).length < 7 →
      ∀ m, evCount { date := some "2020-01-01", slug := some "x" }
        ((dictLookup m (archive_past_events "2026-10-12" []
          [{ date := some "2020-01-01", slug := some "x" },
           { date := some "2026-12-31", slug := some "y" }]).2.1).getD []) =
        evCount { date := some "2020-01-01", slug := some "x" }
          ((dictLookup m ([] : List (String × List Event))).getD [])) ∧
    (dateStr ({ date := some "2020-01-01", slug := some "x" } : Event) < "2026-10-12" →
      (dateStr ({ date := some "2020-01-01", slug := some "x" } : Event)).length ≥ 7 →
      ({ date := some "2020-01-01", slug := some "x" } : Event).slug ∉
        ((dictLookup (monthKey { date := some "2020-01-01", slug := some "x" })
          ([] : List (String × List Event))).getD []).map Event.slug →
      ∃ l', dictLookup (monthKey { date := some "2020-01-01", slug := some "x" })
        (archive_past_events "2026-10-12" []
          [{ date := some "2020-01-01", slug := some "x" },
           { date := some "2026-12-31", slug := some "y" }]).2.1 = some l' ∧
        ({ date := some "2020-01-01", slug := some "x" } : Event) ∈ l')) ∧
    ((¬(dateStr ({ date := some "2026-12-31", slug := some "y" } : Event) < "2026-10-12") →
      ({ date := some "2026-12-31", slug := some "y" } : Event) ∈
        (archive_past_events "2026-10-12" []
          [{ date := some "2020-01-01", slug := some "x" },
           { date := some "2026-12-31", slug := some "y" }]).1 ∧
      ∀ m, evCount { date := some "2026-12-31", slug := some "y" }
        ((dictLookup m (archive_past_events "2026-10-12" []
          [{ date := some "2020-01-01", slug := some "x" },
           { date := some "2026-12-31", slug := some "y" }]).2.1).getD []) =
        evCount { date := some "2026-12-31", slug := some "y" }
          ((dictLookup m ([] : List (String × List Event))).getD [])) ∧
    (dateStr ({ date := some "2026-12-31", slug := some "y" } : Event) < "2026-10-12" →
      ({ date := some "2026-12-31", slug := some "y" } : Event) ∉
        (archive_past_events "2026-10-12" []
          [{ date := some "2020-01-01", slug := some "x" },
           { date := some "2026-12-31", slug := some "y" }]).1) ∧
    (dateStr ({ date := some "2026-12-31", slug := some "y" } : Event) < "2026-10-12" →
      (dateStr ({ date := some "2026-12-31", slug := some "y" } : Event)).length < 7 →
      ∀ m, evCount { date := some "2026-12-31", slug := some "y" }
        ((dictLookup m (archive_past_events "2026-10-12" []
          [{ date := some "2020-01-01", slug := some "x" },
           { date := some "2026-12-31", slug := some "y" }]).2.1).getD []) =
        evCount { date := some "2026-12-31", slug := some "y" }
          ((dictLookup m ([] : List (String × List Event))).getD [])) ∧
    (dateStr ({ date := some "2026-12-31", slug := some "y" } : Event) < "2026-10-12" →
      (dateStr ({ date := some "2026-12-31", slug := some "y" } : Event)).length ≥ 7 →
      ({ date := some "2026-12-31", slug := some "y" } : Event).slug ∉
        ((dictLookup (monthKey { date := some "2026-12-31", slug := some "y" })
          ([] : List (String × List Event))).getD []).map Event.slug →
      ∃ l', dictLookup (monthKey { date := some "2026-12-31", slug := some "y" })
        (archive_past_events "2026-10-12" []
          [{ date := some "2020-01-01", slug := some "x" },
           { date := some "2026-12-31", slug := some "y" }]).2.1 = some l' ∧
        ({ date := some "2026-12-31", slug := some "y" } : Event) ∈ l')) :=
  ⟨archive_malformed_dates "2026-10-12" []
    [{ date := some "2020-01-01", slug := some "x" },
     { date := some "2026-12-31", slug := some "y" }]
    { date := some "2020-01-01", slug := some "x" } (by decide),
   archive_malformed_dates "2026-10-12" []
    [{ date := some "2020-01-01", slug := some "x" },
     { date := some "2026-12-31", slug := some "y" }]
    { date := some "2026-12-31", slug := some "y" } (by decide)⟩

end AtlGigs
